import Mathlib

/-!
# Verification of the blue-noise point-generation core

A shallow embedding, in Lean 4, of the point-generation engine of the
`blue-noise-canvas` repository, together with proofs and refutations of the
specification's testable properties.

Embedded source files:
* `src/lib/blueNoiseWorker.ts` — the Mulberry32 PRNG, Mitchell's
  best-candidate generator (`generateMitchellPoints`), Bridson's Poisson-disk
  sampler (`runBridson`) with its count-calibration wrapper
  (`generateBridsonPoints`), and the worker message handler.
* `src/lib/blueNoise.ts` — the LCG PRNG and `generateBlueNoisePoints`.
* `src/hooks/useBlueNoiseWorker.ts` — the request-coalescing hook, modelled as
  a transition system.

Modelling conventions:
* JavaScript 32-bit integer operations (`>>>`, `^`, `|`, `Math.imul`) are
  modelled on `ℕ` modulo `2 ^ 32`; this is exact for the traces considered
  (all intermediate doubles stay below `2 ^ 53`).
* The one place where double-precision rounding is load-bearing — the LCG of
  `blueNoise.ts`, whose product `seed * 1103515245` exceeds `2 ^ 53` — is
  modelled faithfully with `fl53`, round-to-nearest-even at 53 significant
  bits, exactly IEEE-754 double rounding of integers.
* Continuous quantities in the Bridson sampler (coordinates, radii, `cos`,
  `sin`, `sqrt`) are modelled over `ℝ` with exact real arithmetic; the
  `while` loop is modelled with explicit fuel, and fallible array indexing
  returns `Option` (`none` = out-of-bounds access, proved unreachable).
* Mitchell's generator compares `Math.sqrt` of integer squared distances;
  since `√` is strictly monotone (and rounding of `√` of small integers
  preserves strict order), the embedding compares the integer squares
  directly, with `none : Option ℕ` standing for `Infinity`.
-/

namespace BlueNoise

/-! ## Section 1: the worker PRNG (Mulberry32, `blueNoiseWorker.ts` lines 20–29)

```js
function createSeededRandom(seed) {
  let t = seed >>> 0;
  return function () {
    t += 0x6D2B79F5;
    let x = t;
    x = Math.imul(x ^ (x >>> 15), x | 1);
    x ^= x + Math.imul(x ^ (x >>> 7), x | 61);
    return ((x ^ (x >>> 14)) >>> 0) / 4294967296;
  };
}
```
All operations act on the 32-bit value of `t`; the state is `t mod 2 ^ 32`. -/

/-- `n mod 2 ^ 32`, the JavaScript `>>> 0` / `ToUint32` coercion. -/
def mask32 (n : ℕ) : ℕ := n % 4294967296

/-- `Math.imul`, 32-bit multiplication (signedness is immaterial mod `2 ^ 32`). -/
def imul32 (a b : ℕ) : ℕ := (a * b) % 4294967296

/-- The Mulberry32 finalizer applied to the (already advanced) state `t`:
`x = imul(x ^ (x >>> 15), x | 1); x ^= x + imul(x ^ (x >>> 7), x | 61);
return (x ^ (x >>> 14)) >>> 0`. -/
def mulberryMix (t : ℕ) : ℕ :=
  let x1 := imul32 (Nat.xor t (t >>> 15)) (t ||| 1)
  let x2 := Nat.xor x1 (mask32 (x1 + imul32 (Nat.xor x1 (x1 >>> 7)) (x1 ||| 61)))
  Nat.xor x2 (x2 >>> 14)

/-- One call of the Mulberry32 closure: advance `t` by `0x6D2B79F5` and mix.
Returns (new state, 32-bit output). -/
def mulberryStep (t : ℕ) : ℕ × ℕ :=
  let t' := mask32 (t + 0x6D2B79F5)
  (t', mulberryMix t')

/-- The Mulberry32 state after `n` calls, starting from `seed >>> 0`. -/
def mulberryState (seed : ℕ) : ℕ → ℕ
  | 0 => mask32 seed
  | n + 1 => (mulberryStep (mulberryState seed n)).1

/-- The 32-bit numerator of the `n`-th output (0-indexed) of the Mulberry32
stream seeded with `seed`. -/
def mulberryNat (seed n : ℕ) : ℕ := (mulberryStep (mulberryState seed n)).2

/-- The `n`-th floating output of the worker PRNG, as an exact rational:
the 32-bit mix divided by `4294967296`. -/
def mulberryQ (seed n : ℕ) : ℚ := (mulberryNat seed n : ℚ) / 4294967296

theorem mask32_lt (n : ℕ) : mask32 n < 4294967296 := Nat.mod_lt _ (by norm_num)

theorem imul32_lt (a b : ℕ) : imul32 a b < 4294967296 := Nat.mod_lt _ (by norm_num)

theorem shiftRight_le_self (x k : ℕ) : x >>> k ≤ x := by
  rw [Nat.shiftRight_eq_div_pow]
  exact Nat.div_le_self _ _

theorem mulberryMix_lt (t : ℕ) (ht : t < 4294967296) :
    mulberryMix t < 4294967296 := by
  have h32 : (4294967296 : ℕ) = 2 ^ 32 := by norm_num
  unfold mulberryMix
  have hor1 : t ||| 1 < 4294967296 := by
    rw [h32] at ht ⊢
    exact Nat.or_lt_two_pow ht (by norm_num)
  have hx1 : imul32 (Nat.xor t (t >>> 15)) (t ||| 1) < 4294967296 := imul32_lt _ _
  set x1 := imul32 (Nat.xor t (t >>> 15)) (t ||| 1) with hx1def
  have hmask : mask32 (x1 + imul32 (Nat.xor x1 (x1 >>> 7)) (x1 ||| 61)) < 4294967296 :=
    mask32_lt _
  have hx2 : Nat.xor x1 (mask32 (x1 + imul32 (Nat.xor x1 (x1 >>> 7)) (x1 ||| 61))) <
      4294967296 := by
    rw [h32] at hx1 hmask ⊢
    exact Nat.xor_lt_two_pow hx1 hmask
  set x2 := Nat.xor x1 (mask32 (x1 + imul32 (Nat.xor x1 (x1 >>> 7)) (x1 ||| 61))) with hx2def
  have hsh : x2 >>> 14 < 4294967296 :=
    lt_of_le_of_lt (shiftRight_le_self _ _) hx2
  rw [h32] at hx2 hsh ⊢
  exact Nat.xor_lt_two_pow hx2 hsh

theorem mulberryState_lt (seed n : ℕ) : mulberryState seed n < 4294967296 := by
  cases n with
  | zero => exact mask32_lt _
  | succ m => exact mask32_lt _

theorem mulberryNat_lt (seed n : ℕ) : mulberryNat seed n < 4294967296 :=
  mulberryMix_lt _ (mask32_lt _)

theorem mulberryQ_nonneg (seed n : ℕ) : 0 ≤ mulberryQ seed n := by
  unfold mulberryQ
  positivity

theorem mulberryQ_lt_one (seed n : ℕ) : mulberryQ seed n < 1 := by
  unfold mulberryQ
  rw [div_lt_one (by norm_num)]
  exact_mod_cast mulberryNat_lt seed n

/-! ## Section 2: the `blueNoise.ts` PRNG (LCG, lines 10–15)

```js
function createSeededRandom(seed) {
  return function () {
    seed = (seed * 1103515245 + 12345) & 0x7fffffff;
    return seed / 0x7fffffff;
  };
}
```
Unlike the worker PRNG, this one computes `seed * 1103515245` as a
double-precision product that exceeds `2 ^ 53` for most states, so the IEEE
rounding of that product is semantically load-bearing and is modelled exactly:
`fl53` is round-to-nearest-even at 53 significant bits, which is precisely
how a JavaScript engine rounds an integer-valued product to a double.  The
`& 0x7fffffff` (ToInt32 then mask) keeps the low 31 bits, i.e. reduces the
exact integer value mod `2 ^ 31`. -/

/-- Round-to-nearest-even of a natural number at 53 significant bits:
the value of the IEEE-754 double nearest to `n` (integers below `2 ^ 53`
are exact). -/
def fl53 (n : ℕ) : ℕ :=
  if n < 2 ^ 53 then n
  else
    let g := 2 ^ (Nat.log2 n - 52)
    let q := n / g
    let r := n % g
    if 2 * r < g then g * q
    else if g < 2 * r then g * (q + 1)
    else if q % 2 = 0 then g * q else g * (q + 1)

/-- `fl53` extended to integers by sign symmetry (IEEE rounding is
sign-symmetric). -/
def fl53Z (n : ℤ) : ℤ :=
  if 0 ≤ n then (fl53 n.toNat : ℤ) else -(fl53 (-n).toNat : ℤ)

/-- One call of the `blueNoise.ts` LCG under exact JavaScript double
semantics: the product and the subsequent sum are each rounded to a double,
then `& 0x7fffffff` takes the value mod `2 ^ 31`.  Returns the new state
(which is also the numerator of the returned float). -/
def jsLcgNext (s : ℤ) : ℕ :=
  ((fl53Z (fl53Z (s * 1103515245) + 12345)) % (2147483648 : ℤ)).toNat

/-- The LCG state after `n + 1` calls starting from integer seed `s`
(the closure's `seed` variable after the update of call number `n + 1`). -/
def jsLcgState (s : ℤ) : ℕ → ℕ
  | 0 => jsLcgNext s
  | n + 1 => jsLcgNext (jsLcgState s n)

/-- The float returned by the `n + 1`-st call of the `blueNoise.ts` PRNG,
as an exact rational: the updated state divided by `0x7fffffff = 2 ^ 31 - 1`. -/
def jsLcgQ (s : ℤ) (n : ℕ) : ℚ := (jsLcgState s n : ℚ) / 2147483647

theorem fl53_of_lt {n : ℕ} (h : n < 2 ^ 53) : fl53 n = n := by
  unfold fl53
  rw [if_pos h]

theorem fl53_even {n : ℕ} (h : 2 ^ 53 ≤ n) : 2 ∣ fl53 n := by
  unfold fl53
  rw [if_neg (not_lt.mpr h)]
  have hn0 : n ≠ 0 := by positivity
  have hlog : 53 ≤ Nat.log2 n := (Nat.le_log2 hn0).mpr h
  have hg : 2 ∣ 2 ^ (Nat.log2 n - 52) := dvd_pow_self 2 (by omega)
  dsimp only
  split
  · exact Dvd.dvd.mul_right hg _
  · split
    · exact Dvd.dvd.mul_right hg _
    · split
      · exact Dvd.dvd.mul_right hg _
      · exact Dvd.dvd.mul_right hg _

theorem fl53_ge {n : ℕ} (h : 2 ^ 53 ≤ n) (h63 : n < 2 ^ 63) :
    2 ^ 53 ≤ fl53 n := by
  unfold fl53
  rw [if_neg (not_lt.mpr h)]
  have hn0 : n ≠ 0 := by positivity
  have hlog : 53 ≤ Nat.log2 n := (Nat.le_log2 hn0).mpr h
  have hlog2 : Nat.log2 n < 63 := (Nat.log2_lt hn0).mpr h63
  have hgdvd : 2 ^ (Nat.log2 n - 52) ∣ 2 ^ 53 := pow_dvd_pow 2 (by omega)
  have hq : 2 ^ 53 ≤ 2 ^ (Nat.log2 n - 52) * (n / 2 ^ (Nat.log2 n - 52)) := by
    calc 2 ^ 53 = 2 ^ (Nat.log2 n - 52) * (2 ^ 53 / 2 ^ (Nat.log2 n - 52)) :=
          (Nat.mul_div_cancel' hgdvd).symm
    _ ≤ 2 ^ (Nat.log2 n - 52) * (n / 2 ^ (Nat.log2 n - 52)) :=
          Nat.mul_le_mul_left _ (Nat.div_le_div_right h)
  dsimp only
  split
  · exact hq
  · split
    · exact le_trans hq (Nat.mul_le_mul_left _ (Nat.le_succ _))
    · split
      · exact hq
      · exact le_trans hq (Nat.mul_le_mul_left _ (Nat.le_succ _))

theorem fl53Z_of_abs_lt {n : ℤ} (h : n.natAbs < 2 ^ 53) : fl53Z n = n := by
  unfold fl53Z
  split
  · next hpos =>
      rw [fl53_of_lt (by omega)]
      omega
  · next hneg =>
      rw [fl53_of_lt (by omega)]
      omega

theorem fl53Z_even {n : ℤ} (h : 2 ^ 53 ≤ n.natAbs) : (2 : ℤ) ∣ fl53Z n := by
  unfold fl53Z
  split
  · next hp =>
      have h2 : 2 ∣ fl53 n.toNat := fl53_even (by omega)
      exact_mod_cast Int.natCast_dvd_natCast.mpr h2
  · next hn =>
      have h2 : 2 ∣ fl53 (-n).toNat := fl53_even (by omega)
      exact dvd_neg.mpr (by exact_mod_cast Int.natCast_dvd_natCast.mpr h2)

theorem fl53Z_pos_big {n : ℤ} (h : 2 ^ 53 ≤ n) (h63 : n < 2 ^ 63) :
    2 ^ 53 ≤ fl53Z n := by
  unfold fl53Z
  rw [if_pos (by omega)]
  exact_mod_cast fl53_ge (by omega) (by omega)

theorem fl53Z_neg_big {n : ℤ} (h : n ≤ -(2 ^ 53)) (h63 : -(2 ^ 63) < n) :
    fl53Z n ≤ -(2 ^ 53) := by
  unfold fl53Z
  rw [if_neg (by omega)]
  have := fl53_ge (n := (-n).toNat) (by omega) (by omega)
  omega

/-- Auxiliary: a value congruent to `3989310582049061662` mod `2 ^ 31`
(that is, to `230538014`) has magnitude above `8162278`. -/
theorem lcgSolutionTooBig (s : ℤ) (hsb : s.natAbs ≤ 8162278)
    (hdvd : (2147483648 : ℤ) ∣ (s - 3989310582049061662)) : False := by
  omega

/-- Auxiliary: an even value cannot mask (mod `2 ^ 31`) to the odd target. -/
theorem evenMaskNeTop (x : ℤ) (hx : 2 ∣ x)
    (h : (x % (2147483648 : ℤ)).toNat = 2147483647) : False := by
  omega

/-- Auxiliary: a value in `(-2 ^ 53, -2 ^ 53 + 12345]` masks (mod `2 ^ 31`)
to a small positive value, not to the top. -/
theorem smallNegMaskNeTop (x : ℤ) (h1 : -(2 ^ 53) < x) (h2 : x ≤ -(2 ^ 53) + 12345)
    (h : (x % (2147483648 : ℤ)).toNat = 2147483647) : False := by
  omega

/-- The value `0x7fffffff = 2 ^ 31 - 1` is not in the image of one LCG step
from any 32-bit-magnitude state: that is, the `blueNoise.ts` PRNG can never
reach the state that would make it return exactly `1`.  The unique solution
of `s * 1103515245 + 12345 ≡ 2 ^ 31 - 1 (mod 2 ^ 31)` has all residue-class
representatives of magnitude above `2 ^ 53 / 1103515245`, where the double
product rounds to a granularity of at least 2 and cannot produce the odd
target value. -/
theorem jsLcgNext_ne_top (s : ℤ) (hs : s.natAbs < 2 ^ 32) :
    jsLcgNext s ≠ 2147483647 := by
  intro hcontra
  unfold jsLcgNext at hcontra
  obtain ⟨p, hp⟩ : ∃ p, s * 1103515245 = p := ⟨_, rfl⟩
  rw [hp] at hcontra
  have hpabs : p.natAbs = s.natAbs * 1103515245 := by
    rw [← hp, Int.natAbs_mul]
    rfl
  have hpbound : p.natAbs < 2 ^ 63 := by
    clear hcontra hp
    omega
  by_cases hpsmall : p.natAbs < 2 ^ 53
  · -- the product is exact
    rw [fl53Z_of_abs_lt (n := p) hpsmall] at hcontra
    have hsb : s.natAbs ≤ 8162278 := by
      clear hcontra hp hs hpbound
      omega
    by_cases hsumsmall : (p + 12345).natAbs < 2 ^ 53
    · -- the sum is exact as well: the state would have to solve the
      -- congruence, whose representatives are too large for exactness
      rw [fl53Z_of_abs_lt hsumsmall] at hcontra
      have hout : (p + 12345) % (2147483648 : ℤ) = 2147483647 := by
        have h0 := Int.emod_nonneg (p + 12345) (by norm_num : (2147483648 : ℤ) ≠ 0)
        clear hp hpabs hpbound hpsmall hsumsmall hs hsb
        omega
      -- from the congruence, s ≡ 230538014 (mod 2 ^ 31)
      have hdvd : (2147483648 : ℤ) ∣ (p + 12345 - 2147483647) := by
        clear hcontra hp hpabs hpbound hpsmall hsumsmall hs hsb
        exact Int.dvd_of_emod_eq_zero (by omega)
      rw [← hp] at hdvd
      obtain ⟨t, ht⟩ := hdvd
      refine lcgSolutionTooBig s hsb ⟨1857678181 * t - s * 954594553, ?_⟩
      linear_combination (1857678181 : ℤ) * ht
    · -- the sum rounds at granularity ≥ 2, so the masked result is even
      exact evenMaskNeTop _ (fl53Z_even (Nat.le_of_not_lt hsumsmall)) hcontra
  · -- the product itself rounds at granularity ≥ 2: it is even, |·| ≥ 2 ^ 53
    have hqeven : (2 : ℤ) ∣ fl53Z p := fl53Z_even (Nat.le_of_not_lt hpsmall)
    by_cases hppos : 0 ≤ p
    · have hqbig : 2 ^ 53 ≤ fl53Z p := by
        refine fl53Z_pos_big ?_ ?_
        · clear hcontra hp hqeven
          omega
        · clear hcontra hp hqeven
          omega
      refine evenMaskNeTop _ (fl53Z_even ?_) hcontra
      clear hcontra hp hpabs hpbound hpsmall hs
      omega
    · have hqneg : fl53Z p ≤ -(2 ^ 53) := by
        refine fl53Z_neg_big ?_ ?_
        · clear hcontra hp hqeven
          omega
        · clear hcontra hp hqeven
          omega
      by_cases hsumneg : fl53Z p + 12345 ≤ -(2 ^ 53)
      · refine evenMaskNeTop _ (fl53Z_even ?_) hcontra
        clear hcontra hp hpabs hpbound hpsmall hs hqeven
        omega
      · -- the sum crept back above -2^53: it is exact, even + 12345 with
        -- value in (-2^53, -2^53 + 12345], so the masked result is a small
        -- positive value, never 2^31 - 1
        rw [fl53Z_of_abs_lt (by clear hcontra hp hpabs hpbound hpsmall hs hqeven; omega)]
          at hcontra
        refine smallNegMaskNeTop _ ?_ ?_ hcontra
        · clear hcontra hp hpabs hpbound hpsmall hs hqeven
          omega
        · clear hcontra hp hpabs hpbound hpsmall hs hqeven
          omega

/-! ## Section 3: Mitchell's best-candidate generator
(`blueNoiseWorker.ts` lines 88–154)

The generator draws integer cells `(floor(u·width), floor(u·height))`; all
produced coordinates are integers, so squared distances are naturals and we
compare them directly instead of comparing `Math.sqrt` values (strictly
monotone, and for the integer squared distances in range the rounded doubles
of their square roots are still strictly ordered).  `none : Option ℕ` stands
for `Infinity`.  The JS `filledCells : Set` keyed by the string `"x,y"` is
modelled as a duplicate-free list of the coordinate pairs themselves (the key
is injective in the pair), and the `SpatialGrid` contents coincide with the
list of placed points, so the grid query is modelled as a filter of the placed
points by cell distance. -/

/-- `Math.floor(u * n)` for a Mulberry32 output `u = k / 2 ^ 32`:
exactly `k * n / 2 ^ 32` in integer arithmetic. -/
def floorMulNat (k n : ℕ) : ℕ := k * n / 4294967296

/-- Squared Euclidean distance between two integer points. -/
def nsqDist (a b : ℕ × ℕ) : ℕ :=
  ((a.1 : ℤ) - b.1).natAbs ^ 2 + ((a.2 : ℤ) - b.2).natAbs ^ 2

/-- The square of the `SpatialGrid` cell size
`cellSize = max(sqrt(totalCells / max(numPoints, 1)) / 2, 1)`:
`max` commutes with the strictly monotone square. -/
def cellSizeSq (w h n : ℕ) : ℚ := max ((w * h : ℚ) / (4 * max n 1)) 1

/-- `Math.floor(x / cellSize)` for an integer coordinate `x ≥ 0`, where
`cellSize = √s`: equals `⌊√(x² / s)⌋ = Nat.sqrt ⌊x² / s⌋`, computed exactly
on rationals. -/
def cellIdx (s : ℚ) (x : ℕ) : ℕ := Nat.sqrt (Int.toNat ⌊(x ^ 2 : ℚ) / s⌋)

/-- `dist > bestDistance` on `Option ℕ` squared distances (`none` = Infinity):
`Infinity > Infinity` is false, `Infinity >` any finite value is true. -/
def distGtOpt (d b : Option ℕ) : Bool :=
  match b with
  | none => false
  | some bv =>
    match d with
    | none => true
    | some dv => decide (bv < dv)

/-- `SpatialGrid.getMinDistance` (squared): minimum squared distance from the
candidate to the placed points lying in the 5×5 cell neighborhood of the
candidate's cell (`dx, dy ∈ [-2, 2]`), or `none` (Infinity) if that
neighborhood holds no point. -/
def getMinDistanceSq (s : ℚ) (pts : List (ℕ × ℕ)) (c : ℕ × ℕ) : Option ℕ :=
  let cx := (cellIdx s c.1 : ℤ)
  let cy := (cellIdx s c.2 : ℤ)
  let near := pts.filter fun p =>
    decide ((cellIdx s p.1 : ℤ) - cx ≤ 2) && decide (cx - (cellIdx s p.1 : ℤ) ≤ 2) &&
    decide ((cellIdx s p.2 : ℤ) - cy ≤ 2) && decide (cy - (cellIdx s p.2 : ℤ) ≤ 2)
  (near.map (nsqDist c)).min?

/-- State of Mitchell's generator: the Mulberry32 state `t`, the occupied
cells (JS `filledCells`, in insertion order, duplicate-free by construction),
and the placed points in order (which are also exactly the `SpatialGrid`
contents). -/
structure MState where
  t : ℕ
  filledCells : List (ℕ × ℕ)
  points : List (ℕ × ℕ)
  deriving Repr, DecidableEq

/-- Draw one candidate cell: two Mulberry32 calls, floored against width and
height.  Returns the candidate and the advanced PRNG state. -/
def drawCell (w h t : ℕ) : (ℕ × ℕ) × ℕ :=
  let s1 := mulberryStep t
  let s2 := mulberryStep s1.1
  ((floorMulNat s1.2 w, floorMulNat s2.2 h), s2.1)

/-- The candidate loop of one placement round (`for c < candidatesPerPoint`):
draws candidates, skips those whose cell is already filled, and keeps the
surviving candidate maximizing the (squared) grid distance; `best = none`
models `bestCandidate = null / bestDistance = -1`. -/
def candLoop (w h : ℕ) (s : ℚ) (filled pts : List (ℕ × ℕ)) :
    ℕ → ℕ → Option ((ℕ × ℕ) × Option ℕ) → Option ((ℕ × ℕ) × Option ℕ) × ℕ
  | 0, t, best => (best, t)
  | c + 1, t, best =>
    let d := drawCell w h t
    if d.1 ∈ filled then candLoop w h s filled pts c d.2 best
    else
      let dist : Option ℕ := if pts.isEmpty then none else getMinDistanceSq s pts d.1
      let best' :=
        match best with
        | none => some (d.1, dist)
        | some pb => if distGtOpt dist pb.2 then some (d.1, dist) else best
      candLoop w h s filled pts c d.2 best'

/-- The saturation fallback of one round (`for attempt < 100`): uniform
probes looking for any unoccupied cell, stopping at the first hit. -/
def fallbackLoop (w h : ℕ) (filled : List (ℕ × ℕ)) :
    ℕ → ℕ → Option (ℕ × ℕ) × ℕ
  | 0, t => (none, t)
  | a + 1, t =>
    let d := drawCell w h t
    if d.1 ∈ filled then fallbackLoop w h filled a d.2 else (some d.1, d.2)

/-- Record a winning candidate: mark its cell filled, push it to the output
(and to the `SpatialGrid`, whose contents the `points` list models). -/
def pushPoint (st : MState) (p : ℕ × ℕ) (t : ℕ) : MState :=
  { t := t
    filledCells := if p ∈ st.filledCells then st.filledCells else st.filledCells ++ [p]
    points := st.points ++ [p] }

/-- One placement round (one iteration of the `for i < numPoints` loop):
candidate phase, then the 100-probe fallback if every trial hit a filled
cell, then insertion of the winner if any. -/
def mitchellRound (w h cand : ℕ) (s : ℚ) (st : MState) : MState :=
  match candLoop w h s st.filledCells st.points cand st.t none with
  | (some pb, t1) => pushPoint st pb.1 t1
  | (none, t1) =>
    match fallbackLoop w h st.filledCells 100 t1 with
    | (some p, t2) => pushPoint st p t2
    | (none, t2) => { st with t := t2 }

/-- Whether a round is a saturation miss: every candidate trial hit a filled
cell and all 100 fallback probes hit filled cells as well. -/
def mitchellRoundFailed (w h cand : ℕ) (s : ℚ) (st : MState) : Bool :=
  match candLoop w h s st.filledCells st.points cand st.t none with
  | (none, t1) => (fallbackLoop w h st.filledCells 100 t1).1.isNone
  | (some _, _) => false

/-- The main loop `for (i = 0; i < numPoints && filledCells.size < totalCells;
i++)`, structurally recursive on the remaining rounds. -/
def mitchellLoop (w h cand : ℕ) (s : ℚ) : ℕ → MState → MState
  | 0, st => st
  | r + 1, st =>
    if st.filledCells.length < w * h then
      mitchellLoop w h cand s r (mitchellRound w h cand s st)
    else st

/-- Initial Mitchell state for a seed. -/
def mitchellInit (seed : ℕ) : MState := ⟨mask32 seed, [], []⟩

/-- `generateMitchellPoints(width, height, numPoints, candidatesPerPoint,
seed)`: the produced ordered point list. -/
def generateMitchellPoints (w h n cand seed : ℕ) : List (ℕ × ℕ) :=
  (mitchellLoop w h cand (cellSizeSq w h n) n (mitchellInit seed)).points

/-- The generator state at the start of round `i` (after `i` completed
rounds, subject to the loop guard). -/
def mitchellStateAt (w h n cand seed i : ℕ) : MState :=
  mitchellLoop w h cand (cellSizeSq w h n) (min i n) (mitchellInit seed)

theorem mulberryStep_snd_lt (t : ℕ) : (mulberryStep t).2 < 4294967296 :=
  mulberryMix_lt _ (mask32_lt _)

theorem floorMulNat_lt {k n : ℕ} (hk : k < 4294967296) (hn : 0 < n) :
    floorMulNat k n < n := by
  unfold floorMulNat
  rw [Nat.div_lt_iff_lt_mul (by norm_num)]
  have h1 : k * n < 4294967296 * n := (Nat.mul_lt_mul_right hn).mpr hk
  rw [Nat.mul_comm 4294967296 n] at h1
  exact h1

theorem drawCell_lt (w h t : ℕ) (hw : 0 < w) (hh : 0 < h) :
    (drawCell w h t).1.1 < w ∧ (drawCell w h t).1.2 < h :=
  ⟨floorMulNat_lt (mulberryStep_snd_lt _) hw, floorMulNat_lt (mulberryStep_snd_lt _) hh⟩

/-- A property of candidate points that every accepted candidate satisfies:
it is fresh (its cell is unoccupied) and, for positive dimensions, in bounds. -/
def GoodCand (w h : ℕ) (filled : List (ℕ × ℕ)) (p : ℕ × ℕ) : Prop :=
  p ∉ filled ∧ (0 < w → 0 < h → p.1 < w ∧ p.2 < h)

theorem candLoop_some (w h : ℕ) (s : ℚ) (filled pts : List (ℕ × ℕ)) :
    ∀ (c t : ℕ) (best : Option ((ℕ × ℕ) × Option ℕ)),
      (∀ pb, best = some pb → GoodCand w h filled pb.1) →
      ∀ pb', (candLoop w h s filled pts c t best).1 = some pb' →
        GoodCand w h filled pb'.1 := by
  intro c
  induction c with
  | zero =>
      intro t best hbest pb' hres
      exact hbest pb' hres
  | succ m ih =>
      intro t best hbest pb' hres
      rw [candLoop] at hres
      by_cases hmem : (drawCell w h t).1 ∈ filled
      · rw [if_pos hmem] at hres
        exact ih _ best hbest pb' hres
      · rw [if_neg hmem] at hres
        have hgood : GoodCand w h filled (drawCell w h t).1 :=
          ⟨hmem, fun hw hh => drawCell_lt w h t hw hh⟩
        cases best with
        | none =>
            dsimp only at hres
            refine ih _ _ ?_ pb' hres
            intro pb hpb
            cases hpb
            exact hgood
        | some pb0 =>
            dsimp only at hres
            by_cases hgt : distGtOpt (if pts.isEmpty then none
                else getMinDistanceSq s pts (drawCell w h t).1) pb0.2
            · rw [if_pos hgt] at hres
              refine ih _ _ ?_ pb' hres
              intro pb hpb
              cases hpb
              exact hgood
            · rw [if_neg hgt] at hres
              exact ih _ _ hbest pb' hres

theorem fallbackLoop_some (w h : ℕ) (filled : List (ℕ × ℕ)) :
    ∀ (a t : ℕ) (p : ℕ × ℕ),
      (fallbackLoop w h filled a t).1 = some p → GoodCand w h filled p := by
  intro a
  induction a with
  | zero =>
      intro t p hres
      simp [fallbackLoop] at hres
  | succ m ih =>
      intro t p hres
      rw [fallbackLoop] at hres
      by_cases hmem : (drawCell w h t).1 ∈ filled
      · rw [if_pos hmem] at hres
        exact ih _ p hres
      · rw [if_neg hmem] at hres
        simp only at hres
        cases hres
        exact ⟨hmem, fun hw hh => drawCell_lt w h t hw hh⟩

/-- The invariant of Mitchell's generator: the occupied-cell set coincides
with the placed points (same list), the points are pairwise distinct, and
(for positive dimensions) each point is in bounds. -/
def MInv (w h : ℕ) (st : MState) : Prop :=
  st.filledCells = st.points ∧ st.points.Nodup ∧
    (0 < w → 0 < h → ∀ p ∈ st.points, p.1 < w ∧ p.2 < h)

theorem mitchellRound_cases (w h cand : ℕ) (s : ℚ) (st : MState) :
    ((mitchellRound w h cand s st).filledCells = st.filledCells ∧
      (mitchellRound w h cand s st).points = st.points) ∨
    ∃ p, GoodCand w h st.filledCells p ∧
      (mitchellRound w h cand s st).filledCells = st.filledCells ++ [p] ∧
      (mitchellRound w h cand s st).points = st.points ++ [p] := by
  rcases hc : candLoop w h s st.filledCells st.points cand st.t none with ⟨br, t1⟩
  cases br with
  | some pb =>
      have hgood : GoodCand w h st.filledCells pb.1 :=
        candLoop_some w h s _ _ cand st.t none (by intro q hq; cases hq) pb (by rw [hc])
      right
      refine ⟨pb.1, hgood, ?_, ?_⟩
      · simp only [mitchellRound, hc, pushPoint]
        rw [if_neg hgood.1]
      · simp [mitchellRound, hc, pushPoint]
  | none =>
      rcases hf : fallbackLoop w h st.filledCells 100 t1 with ⟨fr, t2⟩
      cases fr with
      | some p =>
          have hgood : GoodCand w h st.filledCells p :=
            fallbackLoop_some w h _ 100 t1 p (by rw [hf])
          right
          refine ⟨p, hgood, ?_, ?_⟩
          · simp only [mitchellRound, hc, hf, pushPoint]
            rw [if_neg hgood.1]
          · simp [mitchellRound, hc, hf, pushPoint]
      | none =>
          constructor
          constructor <;> simp [mitchellRound, hc, hf]

theorem mitchellRound_inv (w h cand : ℕ) (s : ℚ) (st : MState)
    (hinv : MInv w h st) : MInv w h (mitchellRound w h cand s st) := by
  rcases mitchellRound_cases w h cand s st with ⟨hf, hp⟩ | ⟨p, hgood, hf, hp⟩
  · exact ⟨by rw [hf, hp, hinv.1], by rw [hp]; exact hinv.2.1, by
      rw [hp]; exact hinv.2.2⟩
  · obtain ⟨heq, hnd, hbd⟩ := hinv
    refine ⟨by rw [hf, hp, heq], ?_, ?_⟩
    · rw [hp]
      have hpnotin : p ∉ st.points := by
        rw [← heq]
        exact hgood.1
      simp [List.nodup_append, hnd, hpnotin]
    · intro hw hh q hq
      rw [hp] at hq
      rcases List.mem_append.mp hq with hq | hq
      · exact hbd hw hh q hq
      · simp only [List.mem_singleton] at hq
        subst hq
        exact hgood.2 hw hh

theorem mitchellRound_len (w h cand : ℕ) (s : ℚ) (st : MState) :
    (mitchellRound w h cand s st).points.length ≤ st.points.length + 1 := by
  rcases mitchellRound_cases w h cand s st with ⟨_, hp⟩ | ⟨p, _, _, hp⟩
  · rw [hp]; omega
  · rw [hp]; simp

theorem mitchellLoop_inv (w h cand : ℕ) (s : ℚ) :
    ∀ (f : ℕ) (st : MState), MInv w h st → MInv w h (mitchellLoop w h cand s f st) := by
  intro f
  induction f with
  | zero => intro st hi; exact hi
  | succ m ih =>
      intro st hi
      rw [mitchellLoop]
      split
      · exact ih _ (mitchellRound_inv w h cand s st hi)
      · exact hi

theorem mitchellLoop_len (w h cand : ℕ) (s : ℚ) :
    ∀ (f : ℕ) (st : MState),
      (mitchellLoop w h cand s f st).points.length ≤ st.points.length + f := by
  intro f
  induction f with
  | zero => intro st; simp [mitchellLoop]
  | succ m ih =>
      intro st
      rw [mitchellLoop]
      split
      · have h1 := ih (mitchellRound w h cand s st)
        have h2 := mitchellRound_len w h cand s st
        omega
      · omega

theorem generateMitchellPoints_inv (w h n cand seed : ℕ) :
    MInv w h (mitchellLoop w h cand (cellSizeSq w h n) n (mitchellInit seed)) :=
  mitchellLoop_inv w h cand _ n _ ⟨rfl, List.nodup_nil, by intro _ _ p hp; cases hp⟩

/-- The length of Mitchell's output never exceeds `numPoints` (the round
counter increments every iteration, placed or not). -/
theorem generateMitchellPoints_length_le (w h n cand seed : ℕ) :
    (generateMitchellPoints w h n cand seed).length ≤ n := by
  have := mitchellLoop_len w h cand (cellSizeSq w h n) n (mitchellInit seed)
  simpa [generateMitchellPoints, mitchellInit] using this

theorem generateMitchellPoints_bounds (w h n cand seed : ℕ) (hw : 0 < w) (hh : 0 < h) :
    ∀ p ∈ generateMitchellPoints w h n cand seed, p.1 < w ∧ p.2 < h :=
  (generateMitchellPoints_inv w h n cand seed).2.2 hw hh

theorem mitchellRound_failed_noop (w h cand : ℕ) (s : ℚ) (st : MState)
    (hfail : mitchellRoundFailed w h cand s st = true) :
    (mitchellRound w h cand s st).points = st.points ∧
    (mitchellRound w h cand s st).filledCells = st.filledCells := by
  unfold mitchellRoundFailed at hfail
  rcases hc : candLoop w h s st.filledCells st.points cand st.t none with ⟨br, t1⟩
  rw [hc] at hfail
  cases br with
  | some pb => simp at hfail
  | none =>
      dsimp only at hfail
      rcases hf : fallbackLoop w h st.filledCells 100 t1 with ⟨fr, t2⟩
      rw [hf] at hfail
      cases fr with
      | some p => simp at hfail
      | none => constructor <;> simp [mitchellRound, hc, hf]

theorem mitchellLoop_continue (w h cand : ℕ) (s : ℚ) (st : MState) (r : ℕ)
    (hlt : st.filledCells.length < w * h) :
    mitchellLoop w h cand s (r + 1) st =
      mitchellLoop w h cand s r (mitchellRound w h cand s st) := by
  rw [mitchellLoop, if_pos hlt]

/-! ## Section 4: `generateBlueNoisePoints` (`blueNoise.ts` lines 17–73)

Candidates are continuous: `{x: random() * width, y: random() * height}`,
modelled as exact rationals (the PRNG numerator over `2 ^ 31 - 1`).
`minDistanceToPoints` takes `Math.sqrt` of the minimum squared distance and
the caller only compares these values against each other and against the
initial `-1`, so the embedding carries the squared minimum as an `Option ℚ`
(`none` = Infinity, as returned for an empty point list) exactly as in the
Mitchell embedding. -/

/-- Squared Euclidean distance on rational points (`distanceSquared`). -/
def qDistSq (a b : ℚ × ℚ) : ℚ := (a.1 - b.1) ^ 2 + (a.2 - b.2) ^ 2

/-- `minDistanceToPoints` (squared): `none` (Infinity) iff the list is empty,
else the minimum squared distance. -/
def minDistanceToPointsSq (c : ℚ × ℚ) (pts : List (ℚ × ℚ)) : Option ℚ :=
  (pts.map (qDistSq c)).min?

/-- `dist > bestDistance` on squared values, `none` = Infinity; against the
initial `bestDistance = -1` (modelled by `best = none`) every distance wins. -/
def distGtOptQ (d b : Option ℚ) : Bool :=
  match b with
  | none => false
  | some bv =>
    match d with
    | none => true
    | some dv => decide (bv < dv)

/-- Draw one continuous candidate `(random() * width, random() * height)`:
two LCG calls; returns the candidate and the advanced LCG state. -/
def lcgDraw (w h : ℕ) (s : ℤ) : (ℚ × ℚ) × ℤ :=
  let s1 := jsLcgNext s
  let s2 := jsLcgNext (s1 : ℤ)
  (((s1 : ℚ) / 2147483647 * w, (s2 : ℚ) / 2147483647 * h), (s2 : ℤ))

/-- The candidate loop of one `generateBlueNoisePoints` round. -/
def bnCandLoop (w h : ℕ) (pts : List (ℚ × ℚ)) :
    ℕ → ℤ → Option ((ℚ × ℚ) × Option ℚ) → Option ((ℚ × ℚ) × Option ℚ) × ℤ
  | 0, s, best => (best, s)
  | c + 1, s, best =>
    let d := lcgDraw w h s
    let dist := minDistanceToPointsSq d.1 pts
    let best' :=
      match best with
      | none => some (d.1, dist)
      | some pb => if distGtOptQ dist pb.2 then some (d.1, dist) else best
    bnCandLoop w h pts c d.2 best'

/-- The placement loop of `generateBlueNoisePoints`: one candidate phase per
requested point, pushing the winner (`if (bestCandidate)`). -/
def bnLoop (w h cand : ℕ) : ℕ → ℤ → List (ℚ × ℚ) → List (ℚ × ℚ)
  | 0, _, pts => pts
  | n + 1, s, pts =>
    match bnCandLoop w h pts cand s none with
    | (some pb, s') => bnLoop w h cand n s' (pts ++ [pb.1])
    | (none, s') => bnLoop w h cand n s' pts

/-- `generateBlueNoisePoints(width, height, numPoints, candidatesPerPoint,
seed)` of `blueNoise.ts`. -/
def generateBlueNoisePoints (w h n cand : ℕ) (seed : ℤ) : List (ℚ × ℚ) :=
  bnLoop w h cand n seed []

theorem jsLcgNext_lt (s : ℤ) : jsLcgNext s < 2147483648 := by
  unfold jsLcgNext
  have h1 := Int.emod_nonneg (fl53Z (fl53Z (s * 1103515245) + 12345))
    (by norm_num : (2147483648 : ℤ) ≠ 0)
  have h2 := Int.emod_lt_of_pos (fl53Z (fl53Z (s * 1103515245) + 12345))
    (by norm_num : (0 : ℤ) < 2147483648)
  omega

/-- Any LCG output from a 32-bit-magnitude state, divided by `0x7fffffff`,
lies in `[0, 1)`: the numerator is below `2 ^ 31` and (by
`jsLcgNext_ne_top`) never equal to `2 ^ 31 - 1`. -/
theorem jsLcgNext_frac_lt_one (s : ℤ) (hs : s.natAbs < 2 ^ 32) :
    (jsLcgNext s : ℚ) / 2147483647 < 1 := by
  rw [div_lt_one (by norm_num)]
  have h1 := jsLcgNext_lt s
  have h2 := jsLcgNext_ne_top s hs
  have : jsLcgNext s < 2147483647 := by omega
  exact_mod_cast this

/-- In-bounds predicate for a continuous candidate. -/
def BnBnd (w h : ℕ) (p : ℚ × ℚ) : Prop :=
  0 < w → 0 < h → 0 ≤ p.1 ∧ p.1 < w ∧ 0 ≤ p.2 ∧ p.2 < h

theorem lcgDraw_bnd (w h : ℕ) (s : ℤ) (hs : s.natAbs < 2 ^ 32) :
    BnBnd w h (lcgDraw w h s).1 ∧ (lcgDraw w h s).2.natAbs < 2 ^ 32 := by
  have hfrac1 : ((jsLcgNext s : ℕ) : ℚ) / 2147483647 < 1 := jsLcgNext_frac_lt_one s hs
  have hstate1 : ((jsLcgNext s : ℤ)).natAbs < 2 ^ 32 := by
    have := jsLcgNext_lt s
    omega
  have hfrac2 : ((jsLcgNext ((jsLcgNext s : ℕ) : ℤ) : ℕ) : ℚ) / 2147483647 < 1 :=
    jsLcgNext_frac_lt_one _ hstate1
  constructor
  · intro hw hh
    simp only [lcgDraw]
    have hw' : (0 : ℚ) < w := by exact_mod_cast hw
    have hh' : (0 : ℚ) < h := by exact_mod_cast hh
    refine ⟨?_, ?_, ?_, ?_⟩
    · exact mul_nonneg (div_nonneg (Nat.cast_nonneg _) (by norm_num)) (Nat.cast_nonneg _)
    · calc ((jsLcgNext s : ℕ) : ℚ) / 2147483647 * w < 1 * w :=
            mul_lt_mul_of_pos_right hfrac1 hw'
      _ = w := one_mul _
    · exact mul_nonneg (div_nonneg (Nat.cast_nonneg _) (by norm_num)) (Nat.cast_nonneg _)
    · calc ((jsLcgNext ((jsLcgNext s : ℕ) : ℤ) : ℕ) : ℚ) / 2147483647 * h < 1 * h :=
            mul_lt_mul_of_pos_right hfrac2 hh'
      _ = h := one_mul _
  · have := jsLcgNext_lt ((jsLcgNext s : ℕ) : ℤ)
    simp only [lcgDraw]
    omega

theorem bnCandLoop_inv (w h : ℕ) (pts : List (ℚ × ℚ)) :
    ∀ (c : ℕ) (s : ℤ) (best : Option ((ℚ × ℚ) × Option ℚ)),
      s.natAbs < 2 ^ 32 →
      (∀ pb, best = some pb → BnBnd w h pb.1) →
      (∀ pb, (bnCandLoop w h pts c s best).1 = some pb → BnBnd w h pb.1) ∧
        (bnCandLoop w h pts c s best).2.natAbs < 2 ^ 32 := by
  intro c
  induction c with
  | zero =>
      intro s best hs hbest
      exact ⟨hbest, hs⟩
  | succ m ih =>
      intro s best hs hbest
      simp only [bnCandLoop]
      obtain ⟨hbnd, hs'⟩ := lcgDraw_bnd w h s hs
      cases best with
      | none =>
          dsimp only
          refine ih _ _ hs' ?_
          intro pb hpb
          cases hpb
          exact hbnd
      | some pb0 =>
          dsimp only
          by_cases hgt : distGtOptQ (minDistanceToPointsSq (lcgDraw w h s).1 pts) pb0.2
          · rw [if_pos hgt]
            refine ih _ _ hs' ?_
            intro pb hpb
            cases hpb
            exact hbnd
          · rw [if_neg hgt]
            exact ih _ _ hs' hbest

theorem bnLoop_bnd (w h cand : ℕ) :
    ∀ (n : ℕ) (s : ℤ) (pts : List (ℚ × ℚ)),
      s.natAbs < 2 ^ 32 →
      (∀ p ∈ pts, BnBnd w h p) →
      ∀ p ∈ bnLoop w h cand n s pts, BnBnd w h p := by
  intro n
  induction n with
  | zero =>
      intro s pts _ hpts
      exact hpts
  | succ m ih =>
      intro s pts hs hpts
      rw [bnLoop]
      obtain ⟨hsome, hs'⟩ := bnCandLoop_inv w h pts cand s none hs (by intro pb hpb; cases hpb)
      rcases hc : bnCandLoop w h pts cand s none with ⟨br, s'⟩
      rw [hc] at hsome hs'
      cases br with
      | some pb =>
          refine ih s' (pts ++ [pb.1]) hs' ?_
          intro p hp
          rcases List.mem_append.mp hp with hp | hp
          · exact hpts p hp
          · simp only [List.mem_singleton] at hp
            subst hp
            exact hsome pb rfl
      | none => exact ih s' pts hs' hpts

/-- Every point of `generateBlueNoisePoints` lies in `[0, width) × [0, height)`
for positive dimensions and 32-bit seeds: the PRNG fractions are in `[0, 1)`. -/
theorem generateBlueNoisePoints_bounds (w h n cand : ℕ) (seed : ℤ)
    (hseed : seed.natAbs < 2 ^ 32) (hw : 0 < w) (hh : 0 < h) :
    ∀ p ∈ generateBlueNoisePoints w h n cand seed,
      0 ≤ p.1 ∧ p.1 < w ∧ 0 ≤ p.2 ∧ p.2 < h := by
  intro p hp
  exact bnLoop_bnd w h cand n seed [] hseed (by intro q hq; cases hq) p hp hw hh

/-! ## Section 5: Bridson's Poisson-disk sampler
(`blueNoiseWorker.ts` lines 225–334, `runBridson`)

Continuous coordinates over `ℝ` with exact real arithmetic (`Math.SQRT2`,
`Math.cos`, `Math.sin`, `Math.sqrt`, `Math.PI` become their real
counterparts).  The `while (active.length > 0)` loop gets explicit fuel; the
`Int32Array` grid is a function from the flat cell index to `Option ℕ`
(`none` = `-1`, `some i` = sample index, exactly the values the source
stores).  Array reads `samples[idx]` are modelled with `List.get?`, and any
out-of-bounds read aborts the run with `none` — the safety theorem shows this
never happens. -/

/-- A continuous sample point. -/
abbrev RPoint : Type := ℝ × ℝ

/-- `cellSize = r / Math.SQRT2`. -/
noncomputable def bCellSize (r : ℝ) : ℝ := r / Real.sqrt 2

/-- `gridW = Math.ceil(width / cellSize)`. -/
noncomputable def bGridW (w r : ℝ) : ℕ := (⌈w / bCellSize r⌉).toNat

/-- `gridH = Math.ceil(height / cellSize)`. -/
noncomputable def bGridH (h r : ℝ) : ℕ := (⌈h / bCellSize r⌉).toNat

/-- `gridIndex(gx, gy) = gy * gridW + gx`. -/
def bGridIndex (gridW : ℕ) (gx gy : ℤ) : ℤ := gy * gridW + gx

/-- `pointToCell`: the integer cell of a continuous point. -/
noncomputable def pointToCell (r : ℝ) (p : RPoint) : ℤ × ℤ :=
  (⌊p.1 / bCellSize r⌋, ⌊p.2 / bCellSize r⌋)

/-- `dist2`. -/
def bDist2 (a b : RPoint) : ℝ := (a.1 - b.1) * (a.1 - b.1) + (a.2 - b.2) * (a.2 - b.2)

/-- State of one `runBridson` run: the samples in insertion order, the active
index list, the cell grid, and the Mulberry32 state. -/
structure BState where
  samples : List RPoint
  active : List ℕ
  grid : ℤ → Option ℕ
  t : ℕ

/-- One `random()` call inside `runBridson`: real-valued output. -/
noncomputable def bRand (st : BState) : ℝ × BState :=
  (((mulberryStep st.t).2 : ℝ) / 4294967296, { st with t := (mulberryStep st.t).1 })

/-- `insertSample`: push the sample, activate its index, and register it in
its grid cell when the (floating-geometry-derived) cell is within the grid. -/
noncomputable def insertSample (w h r : ℝ) (st : BState) (p : RPoint) : BState :=
  let idx := st.samples.length
  let c := pointToCell r p
  { samples := st.samples ++ [p]
    active := st.active ++ [idx]
    grid :=
      if 0 ≤ c.1 ∧ c.1 < (bGridW w r : ℤ) ∧ 0 ≤ c.2 ∧ c.2 < (bGridH h r : ℤ) then
        Function.update st.grid (bGridIndex (bGridW w r) c.1 c.2) (some idx)
      else st.grid
    t := st.t }

/-- The integers from `a` to `b` inclusive (the ranges of the nested `for`
loops in `isFarEnough`). -/
def intRange (a b : ℤ) : List ℤ := (List.range (b + 1 - a).toNat).map fun i : ℕ => a + (i : ℤ)

/-- The cells scanned by `isFarEnough`: `x` in `[x0, x1]`, `y` in `[y0, y1]`. -/
def cellList (x0 x1 y0 y1 : ℤ) : List (ℤ × ℤ) :=
  (intRange y0 y1).flatMap fun y => (intRange x0 x1).map fun x => (x, y)

open Classical in
/-- One cell probe of `isFarEnough`: `some true` if the cell is empty or its
sample is at squared distance `≥ r²`; `some false` if its sample is closer;
`none` if the stored index is out of bounds (never happens). -/
noncomputable def checkCell (r : ℝ) (gridW : ℕ) (st : BState) (p : RPoint)
    (c : ℤ × ℤ) : Option Bool :=
  match st.grid (bGridIndex gridW c.1 c.2) with
  | none => some true
  | some idx =>
    match st.samples.get? idx with
    | none => none
    | some q => some (if bDist2 p q < r * r then false else true)

/-- Scan a list of cells, short-circuiting on the first close sample
(mirroring the early `return false`). -/
noncomputable def allFarCells (r : ℝ) (gridW : ℕ) (st : BState) (p : RPoint) :
    List (ℤ × ℤ) → Option Bool
  | [] => some true
  | c :: cs =>
    match checkCell r gridW st p c with
    | none => none
    | some false => some false
    | some true => allFarCells r gridW st p cs

/-- `isFarEnough`: scan the `±2`-cell neighborhood of the candidate's cell,
clamped to the grid. -/
noncomputable def isFarEnough (w h r : ℝ) (st : BState) (p : RPoint) : Option Bool :=
  let c := pointToCell r p
  allFarCells r (bGridW w r) st p
    (cellList (max 0 (c.1 - 2)) (min ((bGridW w r : ℤ) - 1) (c.1 + 2))
      (max 0 (c.2 - 2)) (min ((bGridH h r : ℤ) - 1) (c.2 + 2)))

/-- `randomInAnnulus` with the two uniform draws made explicit:
angle `θ = 2πu`, radius `√((r₂² - r₁²)v + r₁²)` with `r₁ = r`, `r₂ = 2r`. -/
noncomputable def annulusPoint (r : ℝ) (c : RPoint) (u v : ℝ) : RPoint :=
  let theta := 2 * Real.pi * u
  let rad := Real.sqrt (((2 * r) * (2 * r) - r * r) * v + r * r)
  (c.1 + rad * Real.cos theta, c.2 + rad * Real.sin theta)

/-- `inBounds`. -/
def bInBounds (w h : ℝ) (p : RPoint) : Prop :=
  0 ≤ p.1 ∧ p.1 < w ∧ 0 ≤ p.2 ∧ p.2 < h

open Classical in
/-- The `for (attempt = 0; attempt < k; attempt++)` loop around one active
sample: each attempt consumes two draws; the first in-bounds, far-enough
candidate is inserted (`found = true`); exhaustion returns `found = false`. -/
noncomputable def attemptLoop (w h r : ℝ) (center : RPoint) :
    ℕ → BState → Option (BState × Bool)
  | 0, st => some (st, false)
  | a + 1, st =>
    let u := bRand st
    let v := bRand u.2
    let cand := annulusPoint r center u.1 v.1
    if bInBounds w h cand then
      match isFarEnough w h r v.2 cand with
      | none => none
      | some false => attemptLoop w h r center a v.2
      | some true => some (insertSample w h r v.2 cand, true)
    else attemptLoop w h r center a v.2

/-- The `O(1)` swap-removal of the retired active sample:
`last = active.pop(); if (ai < active.length) active[ai] = last`. -/
def removeActive (l : List ℕ) (ai : ℕ) : List ℕ :=
  if ai < l.dropLast.length then l.dropLast.set ai (l.getLast?.getD 0) else l.dropLast

/-- One iteration of the `while (active.length > 0)` loop: pick a random
active sample, try `k` annulus candidates, retire the sample on failure. -/
noncomputable def bridsonStep (w h r : ℝ) (k : ℕ) (st : BState) : Option BState :=
  let u := bRand st
  let ai := (⌊u.1 * st.active.length⌋).toNat
  match u.2.active.get? ai with
  | none => none
  | some sIndex =>
    match u.2.samples.get? sIndex with
    | none => none
    | some s =>
      match attemptLoop w h r s k u.2 with
      | none => none
      | some (st2, found) =>
        some (if found then st2 else { st2 with active := removeActive st2.active ai })

/-- The sampling loop with explicit fuel: `some` of the state reached after
at most `fuel` iterations (stopping when the active list empties), `none` if
an out-of-bounds access aborted the run. -/
noncomputable def bridsonLoop (w h r : ℝ) (k : ℕ) : ℕ → BState → Option BState
  | 0, st => some st
  | f + 1, st =>
    if st.active.isEmpty then some st
    else
      match bridsonStep w h r k st with
      | none => none
      | some st' => bridsonLoop w h r k f st'

/-- The initial state: empty structures, then the single uniform seed sample
`{x: random() * width, y: random() * height}`. -/
noncomputable def bridsonInit (w h r : ℝ) (seed : ℕ) : BState :=
  let st0 : BState := ⟨[], [], fun _ => none, mask32 seed⟩
  let u := bRand st0
  let v := bRand u.2
  insertSample w h r v.2 (u.1 * w, v.1 * h)

/-- `runBridson(width, height, r, k, seed)` with fuel. -/
noncomputable def runBridson (w h r : ℝ) (k : ℕ) (seed fuel : ℕ) : Option BState :=
  bridsonLoop w h r k fuel (bridsonInit w h r seed)

theorem bRand_nonneg (st : BState) : 0 ≤ (bRand st).1 :=
  div_nonneg (Nat.cast_nonneg _) (by norm_num)

theorem bRand_lt_one (st : BState) : (bRand st).1 < 1 := by
  unfold bRand
  rw [div_lt_one (by norm_num)]
  exact_mod_cast mulberryStep_snd_lt st.t

theorem bCellSize_pos {r : ℝ} (hr : 0 < r) : 0 < bCellSize r :=
  div_pos hr (Real.sqrt_pos.mpr (by norm_num))

theorem bCellSize_sq (r : ℝ) : bCellSize r ^ 2 = r ^ 2 / 2 := by
  unfold bCellSize
  rw [div_pow, Real.sq_sqrt (by norm_num : (0 : ℝ) ≤ 2)]

theorem bDist2_comm (a b : RPoint) : bDist2 a b = bDist2 b a := by
  unfold bDist2
  ring

theorem bDist2_nonneg (a b : RPoint) : 0 ≤ bDist2 a b := by
  unfold bDist2
  nlinarith [sq_nonneg (a.1 - b.1), sq_nonneg (a.2 - b.2)]

/-- Two points in the same (half-open) grid cell are strictly closer than
`r`: each coordinate differs by less than `cellSize = r/√2`. -/
theorem dist2_lt_of_same_cell {r : ℝ} (hr : 0 < r) {p q : RPoint}
    (h : pointToCell r p = pointToCell r q) : bDist2 p q < r * r := by
  have hcs : 0 < bCellSize r := bCellSize_pos hr
  have h1 : ⌊p.1 / bCellSize r⌋ = ⌊q.1 / bCellSize r⌋ := congrArg Prod.fst h
  have h2 : ⌊p.2 / bCellSize r⌋ = ⌊q.2 / bCellSize r⌋ := congrArg Prod.snd h
  have key : ∀ a b : ℝ, ⌊a / bCellSize r⌋ = ⌊b / bCellSize r⌋ →
      (a - b) * (a - b) < bCellSize r ^ 2 := by
    intro a b hab
    have ha1 : (⌊a / bCellSize r⌋ : ℝ) ≤ a / bCellSize r := Int.floor_le _
    have ha2 : a / bCellSize r < ⌊a / bCellSize r⌋ + 1 := Int.lt_floor_add_one _
    have hb1 : (⌊b / bCellSize r⌋ : ℝ) ≤ b / bCellSize r := Int.floor_le _
    have hb2 : b / bCellSize r < ⌊b / bCellSize r⌋ + 1 := Int.lt_floor_add_one _
    rw [hab] at ha1 ha2
    have hd : |a / bCellSize r - b / bCellSize r| < 1 := by
      rw [abs_lt]
      constructor <;> linarith
    have hd2 : |a - b| < bCellSize r := by
      have heq : a - b = (a / bCellSize r - b / bCellSize r) * bCellSize r := by
        field_simp
      rw [heq, abs_mul, abs_of_pos hcs]
      calc |a / bCellSize r - b / bCellSize r| * bCellSize r < 1 * bCellSize r :=
            mul_lt_mul_of_pos_right hd hcs
      _ = bCellSize r := one_mul _
    calc (a - b) * (a - b) = |a - b| * |a - b| := (abs_mul_abs_self _).symm
    _ < bCellSize r * bCellSize r := by
        exact mul_lt_mul' (le_of_lt hd2) hd2 (abs_nonneg _) hcs
    _ = bCellSize r ^ 2 := (sq (bCellSize r)).symm
  have k1 := key p.1 q.1 h1
  have k2 := key p.2 q.2 h2
  have hsq : bCellSize r ^ 2 = r ^ 2 / 2 := bCellSize_sq r
  unfold bDist2
  nlinarith [sq_nonneg r]

/-- If two points' cells are more than two cells apart along an axis, the
points are at least `2·cellSize = r·√2 > r` apart in that coordinate. -/
theorem axis_far {r : ℝ} (hr : 0 < r) {a b : ℝ}
    (h : ⌊a / bCellSize r⌋ + 2 < ⌊b / bCellSize r⌋) :
    2 * bCellSize r < b - a := by
  have hcs : 0 < bCellSize r := bCellSize_pos hr
  have ha : a / bCellSize r < ⌊a / bCellSize r⌋ + 1 := Int.lt_floor_add_one _
  have hb : (⌊b / bCellSize r⌋ : ℝ) ≤ b / bCellSize r := Int.floor_le _
  have hcast : (⌊a / bCellSize r⌋ : ℝ) + 3 ≤ (⌊b / bCellSize r⌋ : ℝ) := by
    exact_mod_cast by omega
  have hdiv : a / bCellSize r + 2 < b / bCellSize r := by linarith
  have := mul_lt_mul_of_pos_right hdiv hcs
  rw [add_mul, div_mul_cancel₀ _ (ne_of_gt hcs), div_mul_cancel₀ _ (ne_of_gt hcs)] at this
  linarith

/-- Consequently such points are at squared distance above `r²`. -/
theorem dist2_ge_of_axis_far {r : ℝ} (hr : 0 < r) {p q : RPoint}
    (h : (⌊p.1 / bCellSize r⌋ + 2 < ⌊q.1 / bCellSize r⌋ ∨
          ⌊q.1 / bCellSize r⌋ + 2 < ⌊p.1 / bCellSize r⌋) ∨
         (⌊p.2 / bCellSize r⌋ + 2 < ⌊q.2 / bCellSize r⌋ ∨
          ⌊q.2 / bCellSize r⌋ + 2 < ⌊p.2 / bCellSize r⌋)) :
    r * r ≤ bDist2 p q := by
  have hcs : 0 < bCellSize r := bCellSize_pos hr
  have hsq : bCellSize r ^ 2 = r ^ 2 / 2 := bCellSize_sq r
  have key : ∀ a b : ℝ, 2 * bCellSize r < b - a → r * r ≤ (a - b) * (a - b) := by
    intro a b hab
    nlinarith [sq_nonneg r]
  unfold bDist2
  rcases h with (h | h) | (h | h)
  · have := key _ _ (axis_far hr h)
    nlinarith [sq_nonneg (p.2 - q.2)]
  · have := key _ _ (axis_far hr h)
    nlinarith [sq_nonneg (p.2 - q.2)]
  · have := key _ _ (axis_far hr h)
    nlinarith [sq_nonneg (p.1 - q.1)]
  · have := key _ _ (axis_far hr h)
    nlinarith [sq_nonneg (p.1 - q.1)]

/-- A cell coordinate pair lies inside the Bridson grid. -/
def cellInGrid (w h r : ℝ) (c : ℤ × ℤ) : Prop :=
  0 ≤ c.1 ∧ c.1 < (bGridW w r : ℤ) ∧ 0 ≤ c.2 ∧ c.2 < (bGridH h r : ℤ)

theorem cell_in_grid_of_inBounds {w h r : ℝ} (hw : 0 < w) (hh : 0 < h) (hr : 0 < r)
    {p : RPoint} (hdom : bInBounds w h p) : cellInGrid w h r (pointToCell r p) := by
  have hcs : 0 < bCellSize r := bCellSize_pos hr
  obtain ⟨hx0, hxw, hy0, hyh⟩ := hdom
  have key : ∀ (x d : ℝ), 0 ≤ x → x < d → 0 < d →
      0 ≤ ⌊x / bCellSize r⌋ ∧ ⌊x / bCellSize r⌋ < ((⌈d / bCellSize r⌉).toNat : ℤ) := by
    intro x d hx hxd hd
    have hdc : 0 < d / bCellSize r := div_pos hd hcs
    have hceil : 0 < ⌈d / bCellSize r⌉ := Int.ceil_pos.mpr hdc
    refine ⟨Int.floor_nonneg.mpr (div_nonneg hx (le_of_lt hcs)), ?_⟩
    rw [Int.toNat_of_nonneg (le_of_lt hceil)]
    exact Int.floor_lt.mpr (lt_of_lt_of_le ((div_lt_div_iff_of_pos_right hcs).mpr hxd) (Int.le_ceil _))
  unfold cellInGrid pointToCell bGridW bGridH
  exact ⟨(key p.1 w hx0 hxw hw).1, (key p.1 w hx0 hxw hw).2,
         (key p.2 h hy0 hyh hh).1, (key p.2 h hy0 hyh hh).2⟩

theorem bGridIndex_inj {gW : ℕ} {c d : ℤ × ℤ}
    (hc1 : 0 ≤ c.1) (hc2 : c.1 < (gW : ℤ)) (hd1 : 0 ≤ d.1) (hd2 : d.1 < (gW : ℤ))
    (h : bGridIndex gW c.1 c.2 = bGridIndex gW d.1 d.2) : c = d := by
  unfold bGridIndex at h
  have hgW : (0 : ℤ) < gW := lt_of_le_of_lt hc1 hc2
  have hdvd : (gW : ℤ) ∣ (d.1 - c.1) := ⟨c.2 - d.2, by linear_combination -h⟩
  have hx : c.1 = d.1 := by
    have h0 : d.1 - c.1 = 0 := Int.eq_zero_of_abs_lt_dvd hdvd (by rw [abs_lt]; omega)
    omega
  have hy : c.2 = d.2 := by
    rw [hx] at h
    have h3 : c.2 * (gW : ℤ) = d.2 * gW := by omega
    exact mul_right_cancel₀ (ne_of_gt hgW) h3
  exact Prod.ext hx hy

theorem mem_intRange {a b z : ℤ} : z ∈ intRange a b ↔ a ≤ z ∧ z ≤ b := by
  unfold intRange
  simp only [List.mem_map, List.mem_range]
  constructor
  · rintro ⟨i, hi, rfl⟩
    omega
  · intro ⟨h1, h2⟩
    exact ⟨(z - a).toNat, by omega, by omega⟩

theorem mem_cellList {x0 x1 y0 y1 : ℤ} {c : ℤ × ℤ} :
    c ∈ cellList x0 x1 y0 y1 ↔ (x0 ≤ c.1 ∧ c.1 ≤ x1) ∧ (y0 ≤ c.2 ∧ c.2 ≤ y1) := by
  unfold cellList
  simp only [List.mem_flatMap, List.mem_map, mem_intRange]
  constructor
  · rintro ⟨y, hy, x, hx, rfl⟩
    exact ⟨hx, hy⟩
  · intro ⟨hx, hy⟩
    exact ⟨c.2, hy, c.1, hx, rfl⟩

/-- The invariant of a Bridson run.  Unconditionally: the active list and
the grid hold valid sample indices.  For positive parameters additionally:
all samples are in the domain, every sample is registered in the grid at its
own cell, every grid entry is the registration of its sample, and all
distinct samples are at squared distance at least `r²`. -/
def BInv (w h r : ℝ) (st : BState) : Prop :=
  (∀ i ∈ st.active, i < st.samples.length) ∧
  (∀ n i, st.grid n = some i → i < st.samples.length) ∧
  (0 < w → 0 < h → 0 < r →
    (∀ q ∈ st.samples, bInBounds w h q) ∧
    (∀ i q, st.samples.get? i = some q →
        st.grid (bGridIndex (bGridW w r) (pointToCell r q).1 (pointToCell r q).2) = some i) ∧
    (∀ n i, st.grid n = some i → ∃ q, st.samples.get? i = some q ∧
        n = bGridIndex (bGridW w r) (pointToCell r q).1 (pointToCell r q).2) ∧
    (∀ i j qi qj, st.samples.get? i = some qi → st.samples.get? j = some qj →
        i ≠ j → r * r ≤ bDist2 qi qj))

theorem BInv_t (w h r : ℝ) (st : BState) (x : ℕ) :
    BInv w h r { st with t := x } ↔ BInv w h r st := Iff.rfl

theorem checkCell_isSome {r : ℝ} {gW : ℕ} {st : BState} {p : RPoint} (c : ℤ × ℤ)
    (hsafe : ∀ n i, st.grid n = some i → i < st.samples.length) :
    checkCell r gW st p c ≠ none := by
  unfold checkCell
  cases hg : st.grid (bGridIndex gW c.1 c.2) with
  | none => simp
  | some idx =>
      have hlt := hsafe _ _ hg
      dsimp only
      rw [List.get?_eq_get hlt]
      simp

theorem allFarCells_isSome {r : ℝ} {gW : ℕ} {st : BState} {p : RPoint}
    (hsafe : ∀ n i, st.grid n = some i → i < st.samples.length) :
    ∀ cells, allFarCells r gW st p cells ≠ none := by
  intro cells
  induction cells with
  | nil => simp [allFarCells]
  | cons c cs ih =>
      rw [allFarCells]
      cases hc : checkCell r gW st p c with
      | none => exact absurd hc (checkCell_isSome c hsafe)
      | some b =>
          cases b with
          | false => simp
          | true => exact ih

theorem allFarCells_true {r : ℝ} {gW : ℕ} {st : BState} {p : RPoint} :
    ∀ cells, allFarCells r gW st p cells = some true →
      ∀ c ∈ cells, checkCell r gW st p c = some true := by
  intro cells
  induction cells with
  | nil => intro _ c hc; cases hc
  | cons c0 cs ih =>
      intro hall c hc
      rw [allFarCells] at hall
      cases hc0 : checkCell r gW st p c0 with
      | none => rw [hc0] at hall; cases hall
      | some b =>
          cases b with
          | false => rw [hc0] at hall; cases hall
          | true =>
              rw [hc0] at hall
              rcases List.mem_cons.mp hc with rfl | hmem
              · exact hc0
              · exact ih hall c hmem

/-- `isFarEnough p = some true` really does separate `p` from **every**
sample: samples in the scanned window are seen through their registration;
samples outside the window are more than two cells away on an axis. -/
theorem isFarEnough_spec {w h r : ℝ} (hw : 0 < w) (hh : 0 < h) (hr : 0 < r)
    {st : BState} (hinv : BInv w h r st) {p : RPoint} (hdom : bInBounds w h p)
    (htrue : isFarEnough w h r st p = some true) :
    ∀ j qj, st.samples.get? j = some qj → r * r ≤ bDist2 p qj := by
  intro j qj hj
  obtain ⟨hact, hsafe, hgeo⟩ := hinv
  obtain ⟨hdomS, hreg, honto, hpair⟩ := hgeo hw hh hr
  have hqdom : bInBounds w h qj := hdomS qj (List.get?_mem hj)
  have hqcell : cellInGrid w h r (pointToCell r qj) := cell_in_grid_of_inBounds hw hh hr hqdom
  have hpcell : cellInGrid w h r (pointToCell r p) := cell_in_grid_of_inBounds hw hh hr hdom
  obtain ⟨hq1, hq2, hq3, hq4⟩ := hqcell
  obtain ⟨hp1, hp2, hp3, hp4⟩ := hpcell
  by_cases hwin : (pointToCell r qj) ∈
      cellList (max 0 ((pointToCell r p).1 - 2)) (min ((bGridW w r : ℤ) - 1) ((pointToCell r p).1 + 2))
        (max 0 ((pointToCell r p).2 - 2)) (min ((bGridH h r : ℤ) - 1) ((pointToCell r p).2 + 2))
  · -- within the scanned window: the registration of `qj` is checked
    have hcheck := allFarCells_true _ htrue _ hwin
    unfold checkCell at hcheck
    rw [hreg j qj hj] at hcheck
    dsimp only at hcheck
    rw [hj] at hcheck
    dsimp only at hcheck
    split at hcheck
    · simp at hcheck
    · next hnlt => exact le_of_not_lt hnlt
  · -- outside the window: at least three cells away on some axis
    rw [mem_cellList] at hwin
    push_neg at hwin
    refine dist2_ge_of_axis_far hr ?_
    unfold pointToCell at hq1 hq2 hq3 hq4 hp1 hp2 hp3 hp4 hwin
    simp only at hq1 hq2 hq3 hq4 hp1 hp2 hp3 hp4 hwin
    omega

theorem insertSample_BInv {w h r : ℝ} {st : BState} (hinv : BInv w h r st) {p : RPoint}
    (hdomC : 0 < w → 0 < h → 0 < r → bInBounds w h p)
    (hfarC : 0 < w → 0 < h → 0 < r → isFarEnough w h r st p = some true) :
    BInv w h r (insertSample w h r st p) := by
  have hsamp : (insertSample w h r st p).samples = st.samples ++ [p] := rfl
  have hact : (insertSample w h r st p).active = st.active ++ [st.samples.length] := rfl
  have hlen : (insertSample w h r st p).samples.length = st.samples.length + 1 := by
    rw [hsamp]
    simp
  have hget : ∀ i q, (st.samples ++ [p]).get? i = some q →
      (st.samples.get? i = some q ∧ i < st.samples.length) ∨
      (i = st.samples.length ∧ q = p) := by
    intro i q hq
    have hi1 : i < st.samples.length + 1 := by
      obtain ⟨hi, _⟩ := List.get?_eq_some.mp hq
      simpa using hi
    by_cases hi : i < st.samples.length
    · left
      rw [List.get?_append hi] at hq
      exact ⟨hq, hi⟩
    · right
      have hieq : i = st.samples.length := by omega
      subst hieq
      rw [List.get?_concat_length] at hq
      cases hq
      exact ⟨rfl, rfl⟩
  refine ⟨?_, ?_, ?_⟩
  · -- active indices stay valid
    intro i hi
    rw [hact] at hi
    rw [hlen]
    rcases List.mem_append.mp hi with hi | hi
    · have := hinv.1 i hi
      omega
    · simp only [List.mem_singleton] at hi
      omega
  · -- grid entries stay valid
    intro n i hn
    rw [hlen]
    have hgr0 : (insertSample w h r st p).grid =
        if 0 ≤ (pointToCell r p).1 ∧ (pointToCell r p).1 < (bGridW w r : ℤ) ∧
            0 ≤ (pointToCell r p).2 ∧ (pointToCell r p).2 < (bGridH h r : ℤ) then
          Function.update st.grid
            (bGridIndex (bGridW w r) (pointToCell r p).1 (pointToCell r p).2)
            (some st.samples.length)
        else st.grid := rfl
    rw [hgr0] at hn
    by_cases hc : 0 ≤ (pointToCell r p).1 ∧ (pointToCell r p).1 < (bGridW w r : ℤ) ∧
        0 ≤ (pointToCell r p).2 ∧ (pointToCell r p).2 < (bGridH h r : ℤ)
    · rw [if_pos hc, Function.update_apply] at hn
      split at hn
      · cases hn
        omega
      · have := hinv.2.1 n i hn
        omega
    · rw [if_neg hc] at hn
      have := hinv.2.1 n i hn
      omega
  · -- geometric invariant
    intro hw hh hr
    have hdom := hdomC hw hh hr
    have hfar := hfarC hw hh hr
    obtain ⟨hdomS, hreg, honto, hpair⟩ := hinv.2.2 hw hh hr
    have hfarall := isFarEnough_spec hw hh hr hinv hdom hfar
    have hcig : cellInGrid w h r (pointToCell r p) := cell_in_grid_of_inBounds hw hh hr hdom
    have hifcond : 0 ≤ (pointToCell r p).1 ∧ (pointToCell r p).1 < (bGridW w r : ℤ) ∧
        0 ≤ (pointToCell r p).2 ∧ (pointToCell r p).2 < (bGridH h r : ℤ) := hcig
    have hgr0 : (insertSample w h r st p).grid =
        if 0 ≤ (pointToCell r p).1 ∧ (pointToCell r p).1 < (bGridW w r : ℤ) ∧
            0 ≤ (pointToCell r p).2 ∧ (pointToCell r p).2 < (bGridH h r : ℤ) then
          Function.update st.grid
            (bGridIndex (bGridW w r) (pointToCell r p).1 (pointToCell r p).2)
            (some st.samples.length)
        else st.grid := rfl
    have hgr : (insertSample w h r st p).grid =
        Function.update st.grid
          (bGridIndex (bGridW w r) (pointToCell r p).1 (pointToCell r p).2)
          (some st.samples.length) := by
      rw [hgr0, if_pos hifcond]
    -- the candidate's cell is unoccupied: an occupant would be a same-cell
    -- sample, contradicting the min-distance separation
    have hkey_none : st.grid (bGridIndex (bGridW w r)
        (pointToCell r p).1 (pointToCell r p).2) = none := by
      cases hg : st.grid (bGridIndex (bGridW w r) (pointToCell r p).1 (pointToCell r p).2) with
      | none => rfl
      | some j =>
          obtain ⟨qj, hqj, hkeyeq⟩ := honto _ _ hg
          have hqdom := hdomS qj (List.get?_mem hqj)
          have hcq := cell_in_grid_of_inBounds hw hh hr hqdom
          have hcells : pointToCell r p = pointToCell r qj :=
            bGridIndex_inj hcig.1 hcig.2.1 hcq.1 hcq.2.1 hkeyeq
          have hclose := dist2_lt_of_same_cell hr hcells
          have hfarj := hfarall j qj hqj
          linarith
    refine ⟨?_, ?_, ?_, ?_⟩
    · -- all samples in the domain
      intro q hq
      rw [hsamp] at hq
      rcases List.mem_append.mp hq with hq | hq
      · exact hdomS q hq
      · simp only [List.mem_singleton] at hq
        subst hq
        exact hdom
    · -- every sample registered at its cell
      intro i q hq
      rw [hsamp] at hq
      rw [hgr]
      rcases hget i q hq with ⟨hq', hi⟩ | ⟨hi, hq'⟩
      · have hold := hreg i q hq'
        have hne : bGridIndex (bGridW w r) (pointToCell r q).1 (pointToCell r q).2 ≠
            bGridIndex (bGridW w r) (pointToCell r p).1 (pointToCell r p).2 := by
          intro heq
          rw [heq, hkey_none] at hold
          cases hold
        rw [Function.update_noteq hne]
        exact hold
      · subst hi
        subst hq'
        rw [Function.update_same]
    · -- every grid entry is a registration
      intro n i hn
      rw [hgr] at hn
      rw [Function.update_apply] at hn
      rw [hsamp]
      split at hn
      · next heq =>
          cases hn
          subst heq
          exact ⟨p, List.get?_concat_length _ _, rfl⟩
      · obtain ⟨q, hq, hn'⟩ := honto n i hn
        obtain ⟨hqlt, _⟩ := List.get?_eq_some.mp hq
        exact ⟨q, by rw [List.get?_append hqlt]; exact hq, hn'⟩
    · -- pairwise separation
      intro i j qi qj hqi hqj hij
      rw [hsamp] at hqi hqj
      rcases hget i qi hqi with ⟨hqi', hilt⟩ | ⟨hieq, hqip⟩ <;>
        rcases hget j qj hqj with ⟨hqj', hjlt⟩ | ⟨hjeq, hqjp⟩
      · exact hpair i j qi qj hqi' hqj' hij
      · subst hqjp
        rw [bDist2_comm]
        exact hfarall i qi hqi'
      · subst hqip
        exact hfarall j qj hqj'
      · omega

theorem isFarEnough_ne_none {w h r : ℝ} {st : BState} {p : RPoint}
    (hsafe : ∀ n i, st.grid n = some i → i < st.samples.length) :
    isFarEnough w h r st p ≠ none := by
  unfold isFarEnough
  exact allFarCells_isSome hsafe _

theorem bRand_snd (st : BState) :
    (bRand st).2 = { st with t := (mulberryStep st.t).1 } := rfl

theorem BInv_mk_t {w h r : ℝ} {st : BState} (x : ℕ) (hinv : BInv w h r st) :
    BInv w h r { st with t := x } := hinv

theorem bRand2_snd (st : BState) :
    (bRand (bRand st).2).2 = { st with t := (mulberryStep (mulberryStep st.t).1).1 } := by
  rw [bRand_snd, bRand_snd]

theorem attemptLoop_spec {w h r : ℝ} (center : RPoint) :
    ∀ (n : ℕ) (st : BState), BInv w h r st →
      ∃ st' f, attemptLoop w h r center n st = some (st', f) ∧ BInv w h r st' ∧
        (f = false → st'.samples = st.samples ∧ st'.active = st.active ∧
          st'.grid = st.grid) := by
  intro n
  induction n with
  | zero =>
      intro st hinv
      exact ⟨st, false, rfl, hinv, fun _ => ⟨rfl, rfl, rfl⟩⟩
  | succ m ih =>
      intro st hinv
      rw [attemptLoop]
      rw [bRand2_snd, bRand_snd]
      have hinv2 : BInv w h r { st with t := (mulberryStep (mulberryStep st.t).1).1 } :=
        BInv_mk_t _ hinv
      by_cases hb : bInBounds w h (annulusPoint r center
          (bRand st).1 (bRand { st with t := (mulberryStep st.t).1 }).1)
      · rw [if_pos hb]
        cases hfe : isFarEnough w h r { st with t := (mulberryStep (mulberryStep st.t).1).1 }
            (annulusPoint r center (bRand st).1
              (bRand { st with t := (mulberryStep st.t).1 }).1) with
        | none => exact absurd hfe (isFarEnough_ne_none hinv2.2.1)
        | some b =>
            cases b with
            | false =>
                obtain ⟨st', f, hres, hinv', hfeq⟩ := ih _ hinv2
                refine ⟨st', f, hres, hinv', ?_⟩
                intro hf
                exact hfeq hf
            | true =>
                refine ⟨_, true, rfl, ?_, ?_⟩
                · exact insertSample_BInv hinv2 (fun _ _ _ => hb) (fun _ _ _ => hfe)
                · intro hft
                  cases hft
      · rw [if_neg hb]
        obtain ⟨st', f, hres, hinv', hfeq⟩ := ih _ hinv2
        refine ⟨st', f, hres, hinv', ?_⟩
        intro hf
        exact hfeq hf

theorem removeActive_mem {l : List ℕ} {ai : ℕ} : ∀ x ∈ removeActive l ai, x ∈ l := by
  intro x hx
  unfold removeActive at hx
  split at hx
  · next hlt =>
      rcases List.mem_or_eq_of_mem_set hx with hx | rfl
      · exact List.dropLast_subset _ hx
      · have hne : l ≠ [] := by
          intro h0
          rw [h0] at hlt
          simp at hlt
        rw [List.getLast?_eq_getLast l hne]
        exact List.getLast_mem hne
  · exact List.dropLast_subset _ hx

theorem bridsonStep_spec {w h r : ℝ} {k : ℕ} {st : BState} (hinv : BInv w h r st)
    (hne : st.active ≠ []) :
    ∃ st', bridsonStep w h r k st = some st' ∧ BInv w h r st' := by
  have hl : 0 < st.active.length := List.length_pos.mpr hne
  have hai : (⌊(bRand st).1 * st.active.length⌋).toNat < st.active.length := by
    have hlr : (0 : ℝ) < st.active.length := by exact_mod_cast hl
    have h1 : (bRand st).1 * st.active.length < st.active.length := by
      calc (bRand st).1 * (st.active.length : ℝ) < 1 * st.active.length :=
            mul_lt_mul_of_pos_right (bRand_lt_one st) hlr
      _ = _ := one_mul _
    have h2 : ⌊(bRand st).1 * (st.active.length : ℝ)⌋ < (st.active.length : ℤ) :=
      Int.floor_lt.mpr (by exact_mod_cast h1)
    have h3 : 0 ≤ ⌊(bRand st).1 * (st.active.length : ℝ)⌋ :=
      Int.floor_nonneg.mpr (mul_nonneg (bRand_nonneg st) (Nat.cast_nonneg _))
    omega
  rw [bridsonStep]
  rw [bRand_snd]
  have hg1 : ({ st with t := (mulberryStep st.t).1 } : BState).active.get?
      ((⌊(bRand st).1 * st.active.length⌋).toNat) =
      some (st.active.get ⟨(⌊(bRand st).1 * st.active.length⌋).toNat, hai⟩) :=
    List.get?_eq_get hai
  rw [hg1]
  dsimp only
  have hsIdx : st.active.get ⟨(⌊(bRand st).1 * st.active.length⌋).toNat, hai⟩ <
      st.samples.length := hinv.1 _ (List.get_mem _ _ hai)
  have hg2 : ({ st with t := (mulberryStep st.t).1 } : BState).samples.get?
      (st.active.get ⟨(⌊(bRand st).1 * st.active.length⌋).toNat, hai⟩) =
      some (st.samples.get ⟨_, hsIdx⟩) :=
    List.get?_eq_get hsIdx
  rw [hg2]
  dsimp only
  have hinv1 : BInv w h r { st with t := (mulberryStep st.t).1 } := BInv_mk_t _ hinv
  obtain ⟨st2, f, hres, hinv2, hfeq⟩ := attemptLoop_spec _ k _ hinv1
  rw [hres]
  dsimp only
  cases f with
  | true => exact ⟨st2, rfl, hinv2⟩
  | false =>
      have hbinv3 : BInv w h r { st2 with active := removeActive st2.active (⌊(bRand st).1 * (st.active.length : ℝ)⌋.toNat) } := by
        refine ⟨?_, hinv2.2.1, hinv2.2.2⟩
        intro i hi
        exact hinv2.1 i (removeActive_mem i hi)
      exact ⟨_, rfl, hbinv3⟩

theorem bridsonLoop_spec {w h r : ℝ} {k : ℕ} :
    ∀ (fuel : ℕ) (st : BState), BInv w h r st →
      ∃ st', bridsonLoop w h r k fuel st = some st' ∧ BInv w h r st' := by
  intro fuel
  induction fuel with
  | zero =>
      intro st hinv
      exact ⟨st, rfl, hinv⟩
  | succ m ih =>
      intro st hinv
      rw [bridsonLoop]
      by_cases he : st.active.isEmpty
      · rw [if_pos he]
        exact ⟨st, rfl, hinv⟩
      · rw [if_neg he]
        have hne : st.active ≠ [] := by
          intro h0
          rw [h0] at he
          exact he rfl
        obtain ⟨st1, hstep, hinv1⟩ := bridsonStep_spec hinv hne
        rw [hstep]
        exact ih st1 hinv1

theorem allFarCells_of_empty_grid {r : ℝ} {gW : ℕ} {st : BState} {p : RPoint}
    (hempty : ∀ n, st.grid n = none) :
    ∀ cells, allFarCells r gW st p cells = some true := by
  intro cells
  induction cells with
  | nil => rfl
  | cons c cs ih =>
      rw [allFarCells]
      unfold checkCell
      rw [hempty]
      exact ih

set_option maxRecDepth 4000 in
theorem bridsonInit_BInv (w h r : ℝ) (seed : ℕ) : BInv w h r (bridsonInit w h r seed) := by
  have hbase : ∀ tt : ℕ, BInv w h r ⟨[], [], fun _ => none, tt⟩ := by
    intro tt
    refine ⟨?_, ?_, ?_⟩
    · intro i hi
      cases hi
    · intro n i hn
      cases hn
    · intro _ _ _
      refine ⟨?_, ?_, ?_, ?_⟩
      · intro q hq
        cases hq
      · intro i q hq
        cases i <;> cases hq
      · intro n i hn
        cases hn
      · intro i q qi qj hqi
        cases i <;> cases hqi
  rw [bridsonInit]
  rw [bRand2_snd, bRand_snd]
  refine insertSample_BInv (hbase _) ?_ ?_
  · intro hw hh hr
    refine ⟨?_, ?_, ?_, ?_⟩
    · exact mul_nonneg (bRand_nonneg _) (le_of_lt hw)
    · calc (bRand (⟨[], [], fun _ => none, mask32 seed⟩ : BState)).1 * w < 1 * w :=
            mul_lt_mul_of_pos_right (bRand_lt_one _) hw
      _ = w := one_mul _
    · exact mul_nonneg (bRand_nonneg _) (le_of_lt hh)
    · calc (bRand (⟨[], [], fun _ => none,
            (mulberryStep (mask32 seed)).1⟩ : BState)).1 * h < 1 * h :=
            mul_lt_mul_of_pos_right (bRand_lt_one _) hh
      _ = h := one_mul _
  · intro _ _ _
    unfold isFarEnough
    exact allFarCells_of_empty_grid (fun _ => rfl) _

/-- Every Bridson run succeeds (no out-of-bounds access is ever taken) and
its result satisfies the full invariant. -/
theorem runBridson_spec (w h r : ℝ) (k : ℕ) (seed fuel : ℕ) :
    ∃ st', runBridson w h r k seed fuel = some st' ∧ BInv w h r st' :=
  bridsonLoop_spec fuel _ (bridsonInit_BInv w h r seed)

/-! ## Section 6: `generateBridsonPoints` — radius calibration and pixel
snapping (`blueNoiseWorker.ts` lines 156–223)

The bisection loop carries `(rMin, rMax, bestPoints, bestDiff)`;
`bestPoints = [], bestDiff = Infinity` is modelled by `none`.  The `0.05`
and `0.6` double literals are modelled by the exact rationals/reals they
denote (the comparisons they enter are never decided within one ulp of a
boundary for realistic counts). -/

/-- `Math.abs(points.length - targetPoints)`. -/
def countDiff (cnt target : ℕ) : ℕ := ((cnt : ℤ) - target).natAbs

/-- The early-stop test `diff <= Math.max(1, targetPoints * 0.05)`. -/
def calibStop (diff target : ℕ) : Prop :=
  (diff : ℚ) ≤ max 1 ((target : ℚ) * 0.05)

instance (diff target : ℕ) : Decidable (calibStop diff target) := by
  unfold calibStop
  infer_instance

/-- The initial upper radius bound
`Math.sqrt(area / Math.max(targetPoints * 0.6, 1)) * 2`. -/
noncomputable def bridsonRMax (w h target : ℕ) : ℝ :=
  Real.sqrt ((w * h : ℝ) / max ((target : ℝ) * 0.6) 1) * 2

/-- `bestPoints` / `bestDiff` update: keep the trial strictly closer to the
target (`diff < bestDiff`), so the earliest best is retained. -/
def updBest (best : Option (List RPoint × ℕ)) (pts : List RPoint) (diff : ℕ) :
    Option (List RPoint × ℕ) :=
  match best with
  | none => some (pts, diff)
  | some b => if diff < b.2 then some (pts, diff) else best

open Classical in
/-- The calibration loop of `generateBridsonPoints`: up to `rem` further
bisection iterations, iteration counter `iter` (trial seed `seed + iter *
1000`), current bracket `[lo, hi]`, accumulated best trial.  Returns the
retained `bestPoints` (`[]` when no iteration ran). -/
noncomputable def calibLoop (w h target k seed fuel : ℕ) :
    ℕ → ℕ → ℝ → ℝ → Option (List RPoint × ℕ) → Option (List RPoint)
  | 0, _, _, _, best => some ((best.map Prod.fst).getD [])
  | rem + 1, iter, lo, hi, best =>
    match runBridson w h ((lo + hi) / 2) k (seed + iter * 1000) fuel with
    | none => none
    | some st =>
      let diff := countDiff st.samples.length target
      let best' := updBest best st.samples diff
      if calibStop diff target then some ((best'.map Prod.fst).getD [])
      else if st.samples.length < target then
        calibLoop w h target k seed fuel rem (iter + 1) lo ((lo + hi) / 2) best'
      else
        calibLoop w h target k seed fuel rem (iter + 1) ((lo + hi) / 2) hi best'

open Classical in
/-- The snap-and-deduplicate pass: floor each retained continuous point to a
pixel, drop it if out of bounds, keep the first occupant of each pixel, in
insertion order (the JS `Map` iterates in insertion order). -/
noncomputable def snapDedup (w h : ℕ) : List RPoint → List (ℕ × ℕ) → List (ℕ × ℕ)
  | [], acc => acc
  | p :: rest, acc =>
    if hb : 0 ≤ ⌊p.1⌋ ∧ ⌊p.1⌋ < (w : ℤ) ∧ 0 ≤ ⌊p.2⌋ ∧ ⌊p.2⌋ < (h : ℤ) then
      if (⌊p.1⌋.toNat, ⌊p.2⌋.toNat) ∈ acc then snapDedup w h rest acc
      else snapDedup w h rest (acc ++ [(⌊p.1⌋.toNat, ⌊p.2⌋.toNat)])
    else snapDedup w h rest acc

/-- `generateBridsonPoints(width, height, numPoints, seed)`:
degenerate-parameter guard, count target, calibration, snap. -/
noncomputable def generateBridsonPoints (w h n seed fuel : ℕ) :
    Option (List (ℕ × ℕ)) :=
  if n = 0 ∨ w = 0 ∨ h = 0 then some []
  else
    match calibLoop w h (min n (w * h)) 30 seed fuel 8 0 (1 / 2 : ℝ)
        (bridsonRMax w h (min n (w * h))) none with
    | none => none
    | some pts => some (snapDedup w h pts [])

theorem snapDedup_bounds (w h : ℕ) :
    ∀ (pts : List RPoint) (acc : List (ℕ × ℕ)),
      (∀ q ∈ acc, q.1 < w ∧ q.2 < h) →
      ∀ q ∈ snapDedup w h pts acc, q.1 < w ∧ q.2 < h := by
  intro pts
  induction pts with
  | nil =>
      intro acc hacc q hq
      exact hacc q hq
  | cons p rest ih =>
      intro acc hacc q hq
      rw [snapDedup] at hq
      split at hq
      · next hb =>
          split at hq
          · exact ih acc hacc q hq
          · refine ih _ ?_ q hq
            intro q' hq'
            rcases List.mem_append.mp hq' with hq' | hq'
            · exact hacc q' hq'
            · simp only [List.mem_singleton] at hq'
              subst hq'
              constructor
              · have := hb.2.1
                omega
              · have := hb.2.2.2
                omega
      · exact ih acc hacc q hq

/-- Every pixel produced by `generateBridsonPoints` lies in
`[0, width) × [0, height)` (the snap pass bounds-checks each pixel). -/
theorem generateBridsonPoints_bounds (w h n seed fuel : ℕ) :
    ∀ l, generateBridsonPoints w h n seed fuel = some l →
      ∀ q ∈ l, q.1 < w ∧ q.2 < h := by
  intro l hl q hq
  unfold generateBridsonPoints at hl
  split at hl
  · cases hl
    cases hq
  · split at hl
    · cases hl
    · cases hl
      exact snapDedup_bounds w h _ [] (by intro q' hq'; cases hq') q hq

/-! ### The calibration loop's specification-level characterization

`calibTrials` records, per executed bisection iteration, the bracket
`(lo, hi)` it ran with and the sample list the core returned.  `FirstMinAt`
is the specification's selection criterion: the retained trial is the
earliest one whose count-distance to the target is minimal. -/

noncomputable def calibTrials (w h target k seed fuel : ℕ) :
    ℕ → ℕ → ℝ → ℝ → Option (List (ℝ × ℝ × List RPoint))
  | 0, _, _, _ => some []
  | rem + 1, iter, lo, hi =>
    match runBridson w h ((lo + hi) / 2) k (seed + iter * 1000) fuel with
    | none => none
    | some st =>
      if calibStop (countDiff st.samples.length target) target then
        some [(lo, hi, st.samples)]
      else if st.samples.length < target then
        (calibTrials w h target k seed fuel rem (iter + 1) lo ((lo + hi) / 2)).map
          (fun ts => (lo, hi, st.samples) :: ts)
      else
        (calibTrials w h target k seed fuel rem (iter + 1) ((lo + hi) / 2) hi).map
          (fun ts => (lo, hi, st.samples) :: ts)

/-- `a` is the earliest element of `l` minimizing `f`: everything before it
is strictly worse, everything after it no better. -/
def FirstMinAt {α : Type} (f : α → ℕ) (l : List α) (a : α) : Prop :=
  ∃ l1 l2, l = l1 ++ a :: l2 ∧ (∀ x ∈ l1, f a < f x) ∧ (∀ x ∈ l2, f a ≤ f x)

/-- Invariant tying the loop's `best` accumulator to the trials already
processed. -/
def SelInv (f : List RPoint → ℕ) (pre : List (List RPoint))
    (b : Option (List RPoint × ℕ)) : Prop :=
  (pre = [] ∧ b = none) ∨ ∃ a, b = some (a, f a) ∧ FirstMinAt f pre a

theorem updBest_sel {f : List RPoint → ℕ} {pre : List (List RPoint)}
    {b : Option (List RPoint × ℕ)} (hsel : SelInv f pre b) (t : List RPoint) :
    SelInv f (pre ++ [t]) (updBest b t (f t)) := by
  rcases hsel with ⟨hpre, hb⟩ | ⟨a, hb, l1, l2, heq, h1, h2⟩
  · subst hpre
    subst hb
    right
    refine ⟨t, rfl, [], [], rfl, ?_, ?_⟩ <;>
      · intro x hx
        cases hx
  · subst hb
    unfold updBest
    dsimp only
    by_cases hlt : f t < f a
    · rw [if_pos hlt]
      right
      refine ⟨t, rfl, pre, [], by simp, ?_, by intro x hx; cases hx⟩
      intro x hx
      rw [heq] at hx
      rcases List.mem_append.mp hx with hx | hx
      · exact lt_trans hlt (h1 x hx)
      · rcases List.mem_cons.mp hx with rfl | hx
        · exact hlt
        · exact lt_of_lt_of_le hlt (h2 x hx)
    · rw [if_neg hlt]
      right
      refine ⟨a, rfl, l1, l2 ++ [t], by rw [heq]; simp, h1, ?_⟩
      intro x hx
      rcases List.mem_append.mp hx with hx | hx
      · exact h2 x hx
      · rcases List.mem_singleton.mp hx with rfl
        omega

theorem calibLoop_trials (w h target k seed fuel : ℕ) :
    ∀ (rem iter : ℕ) (lo hi : ℝ) (b : Option (List RPoint × ℕ))
      (pre : List (List RPoint)),
      SelInv (fun pts => countDiff pts.length target) pre b →
      ∃ ts, calibTrials w h target k seed fuel rem iter lo hi = some ts ∧
        ((pre ++ ts.map (fun t => t.2.2) = [] ∧
            calibLoop w h target k seed fuel rem iter lo hi b = some []) ∨
          (∃ a, FirstMinAt (fun pts => countDiff pts.length target)
              (pre ++ ts.map (fun t => t.2.2)) a ∧
            calibLoop w h target k seed fuel rem iter lo hi b = some a)) := by
  intro rem
  induction rem with
  | zero =>
      intro iter lo hi b pre hsel
      refine ⟨[], rfl, ?_⟩
      rcases hsel with ⟨hpre, hb⟩ | ⟨a, hb, hfm⟩
      · subst hpre
        subst hb
        exact Or.inl ⟨rfl, rfl⟩
      · subst hb
        exact Or.inr ⟨a, by simpa using hfm, rfl⟩
  | succ m ih =>
      intro iter lo hi b pre hsel
      obtain ⟨st, hrun, _⟩ := runBridson_spec w h ((lo + hi) / 2) k (seed + iter * 1000) fuel
      have hsel' := updBest_sel hsel st.samples
      rw [calibTrials, calibLoop, hrun]
      dsimp only
      by_cases hstop : calibStop (countDiff st.samples.length target) target
      · rw [if_pos hstop, if_pos hstop]
        refine ⟨[(lo, hi, st.samples)], rfl, Or.inr ?_⟩
        rcases hsel' with ⟨_, hb'⟩ | ⟨a, hb', hfm⟩
        · exfalso
          cases b with
          | none => simp [updBest] at hb'
          | some b2 =>
              unfold updBest at hb'
              dsimp only at hb'
              split at hb' <;> cases hb'
        · refine ⟨a, by simpa using hfm, ?_⟩
          rw [hb']
          rfl
      · rw [if_neg hstop, if_neg hstop]
        by_cases hcnt : st.samples.length < target
        · rw [if_pos hcnt, if_pos hcnt]
          obtain ⟨ts', hts', hdisj⟩ := ih (iter + 1) lo ((lo + hi) / 2)
            (updBest b st.samples (countDiff st.samples.length target))
            (pre ++ [st.samples]) hsel'
          refine ⟨(lo, hi, st.samples) :: ts', by rw [hts']; rfl, ?_⟩
          rcases hdisj with ⟨habs, _⟩ | ⟨a, hfm, hres⟩
          · exact absurd habs (by simp)
          · refine Or.inr ⟨a, ?_, hres⟩
            simpa [List.append_assoc] using hfm
        · rw [if_neg hcnt, if_neg hcnt]
          obtain ⟨ts', hts', hdisj⟩ := ih (iter + 1) ((lo + hi) / 2) hi
            (updBest b st.samples (countDiff st.samples.length target))
            (pre ++ [st.samples]) hsel'
          refine ⟨(lo, hi, st.samples) :: ts', by rw [hts']; rfl, ?_⟩
          rcases hdisj with ⟨habs, _⟩ | ⟨a, hfm, hres⟩
          · exact absurd habs (by simp)
          · refine Or.inr ⟨a, ?_, hres⟩
            simpa [List.append_assoc] using hfm

theorem calibTrials_props (w h target k seed fuel : ℕ) :
    ∀ (rem iter : ℕ) (lo hi : ℝ) (ts : List (ℝ × ℝ × List RPoint)),
      calibTrials w h target k seed fuel rem iter lo hi = some ts →
      ts.length ≤ rem ∧
      (0 < rem → 0 < ts.length) ∧
      (∀ ht : 0 < ts.length, (ts.get ⟨0, ht⟩).1 = lo ∧ (ts.get ⟨0, ht⟩).2.1 = hi) ∧
      (∀ i (hi2 : i < ts.length), ∃ st,
          runBridson w h (((ts.get ⟨i, hi2⟩).1 + (ts.get ⟨i, hi2⟩).2.1) / 2) k
            (seed + (iter + i) * 1000) fuel = some st ∧
          (ts.get ⟨i, hi2⟩).2.2 = st.samples) ∧
      (∀ i (hi2 : i + 1 < ts.length),
          ((ts.get ⟨i, Nat.lt_of_succ_lt hi2⟩).2.2.length < target →
            (ts.get ⟨i + 1, hi2⟩).1 = (ts.get ⟨i, Nat.lt_of_succ_lt hi2⟩).1 ∧
            (ts.get ⟨i + 1, hi2⟩).2.1 =
              ((ts.get ⟨i, Nat.lt_of_succ_lt hi2⟩).1 +
                (ts.get ⟨i, Nat.lt_of_succ_lt hi2⟩).2.1) / 2) ∧
          (target ≤ (ts.get ⟨i, Nat.lt_of_succ_lt hi2⟩).2.2.length →
            (ts.get ⟨i + 1, hi2⟩).1 =
              ((ts.get ⟨i, Nat.lt_of_succ_lt hi2⟩).1 +
                (ts.get ⟨i, Nat.lt_of_succ_lt hi2⟩).2.1) / 2 ∧
            (ts.get ⟨i + 1, hi2⟩).2.1 = (ts.get ⟨i, Nat.lt_of_succ_lt hi2⟩).2.1)) ∧
      (∀ i (hi2 : i + 1 < ts.length),
          ¬ calibStop (countDiff (ts.get ⟨i, Nat.lt_of_succ_lt hi2⟩).2.2.length target)
            target) ∧
      (ts.length < rem → ∀ t, ts.getLast? = some t →
          calibStop (countDiff t.2.2.length target) target) := by
  intro rem
  induction rem with
  | zero =>
      intro iter lo hi ts hts
      rw [calibTrials] at hts
      cases hts
      refine ⟨by simp, by omega, ?_, ?_, ?_, ?_, ?_⟩
      · intro ht
        simp at ht
      · intro i hi2
        simp at hi2
      · intro i hi2
        simp at hi2
      · intro i hi2
        simp at hi2
      · intro habs
        simp at habs
  | succ m ih =>
      intro iter lo hi ts hts
      rw [calibTrials] at hts
      obtain ⟨st, hrun, _⟩ := runBridson_spec w h ((lo + hi) / 2) k (seed + iter * 1000) fuel
      rw [hrun] at hts
      dsimp only at hts
      by_cases hstop : calibStop (countDiff st.samples.length target) target
      · rw [if_pos hstop] at hts
        cases hts
        refine ⟨by simp, by simp, fun _ => ⟨rfl, rfl⟩, ?_, ?_, ?_, ?_⟩
        · intro i hi2
          simp only [List.length_singleton] at hi2
          interval_cases i
          exact ⟨st, by simpa using hrun, rfl⟩
        · intro i hi2
          simp at hi2
        · intro i hi2
          simp at hi2
        · intro _ t ht
          simp only [List.getLast?_singleton, Option.some.injEq] at ht
          subst ht
          exact hstop
      · rw [if_neg hstop] at hts
        by_cases hcnt : st.samples.length < target
        · rw [if_pos hcnt] at hts
          rcases Option.map_eq_some'.mp hts with ⟨ts', hts', hcons⟩
          subst hcons
          obtain ⟨hlen, hpos, hhead, hP3, hP2, hP4, hP5⟩ :=
            ih (iter + 1) lo ((lo + hi) / 2) ts' hts'
          refine ⟨by simp; omega, by simp, fun _ => ⟨rfl, rfl⟩, ?_, ?_, ?_, ?_⟩
          · intro i hi2
            cases i with
            | zero => exact ⟨st, by simpa using hrun, rfl⟩
            | succ j =>
                have hj : j < ts'.length := by
                  simp only [List.length_cons] at hi2
                  omega
                obtain ⟨stj, hrunj, heqj⟩ := hP3 j hj
                refine ⟨stj, ?_, heqj⟩
                have harith : iter + (j + 1) = iter + 1 + j := by omega
                rw [harith]
                exact hrunj
          · intro i hi2
            cases i with
            | zero =>
                have ht' : 0 < ts'.length := by
                  simp only [List.length_cons] at hi2
                  omega
                refine ⟨fun _ => ?_, fun habs => ?_⟩
                · exact ⟨(hhead ht').1.symm ▸ (hhead ht').1, (hhead ht').2⟩
                · have habs' : target ≤ st.samples.length := habs
                  omega
            | succ j =>
                have hj : j + 1 < ts'.length := by
                  simp only [List.length_cons] at hi2
                  omega
                exact hP2 j hj
          · intro i hi2
            cases i with
            | zero => exact hstop
            | succ j =>
                have hj : j + 1 < ts'.length := by
                  simp only [List.length_cons] at hi2
                  omega
                exact hP4 j hj
          · intro hlt t ht
            have hpos' : 0 < ts'.length := by
              by_contra h0
              have : ts'.length = 0 := by omega
              simp only [List.length_cons] at hlt
              have hm : 0 < m := by omega
              have := hpos hm
              omega
            cases ts' with
            | nil => simp at hpos'
            | cons y ts'' =>
                rw [List.getLast?_cons_cons] at ht
                refine hP5 ?_ t ht
                simp only [List.length_cons] at hlt ⊢
                omega
        · rw [if_neg hcnt] at hts
          rcases Option.map_eq_some'.mp hts with ⟨ts', hts', hcons⟩
          subst hcons
          obtain ⟨hlen, hpos, hhead, hP3, hP2, hP4, hP5⟩ :=
            ih (iter + 1) ((lo + hi) / 2) hi ts' hts'
          refine ⟨by simp; omega, by simp, fun _ => ⟨rfl, rfl⟩, ?_, ?_, ?_, ?_⟩
          · intro i hi2
            cases i with
            | zero => exact ⟨st, by simpa using hrun, rfl⟩
            | succ j =>
                have hj : j < ts'.length := by
                  simp only [List.length_cons] at hi2
                  omega
                obtain ⟨stj, hrunj, heqj⟩ := hP3 j hj
                refine ⟨stj, ?_, heqj⟩
                have harith : iter + (j + 1) = iter + 1 + j := by omega
                rw [harith]
                exact hrunj
          · intro i hi2
            cases i with
            | zero =>
                have ht' : 0 < ts'.length := by
                  simp only [List.length_cons] at hi2
                  omega
                refine ⟨fun habs => ?_, fun _ => ?_⟩
                · have habs' : st.samples.length < target := habs
                  omega
                · exact ⟨(hhead ht').1, (hhead ht').2⟩
            | succ j =>
                have hj : j + 1 < ts'.length := by
                  simp only [List.length_cons] at hi2
                  omega
                exact hP2 j hj
          · intro i hi2
            cases i with
            | zero => exact hstop
            | succ j =>
                have hj : j + 1 < ts'.length := by
                  simp only [List.length_cons] at hi2
                  omega
                exact hP4 j hj
          · intro hlt t ht
            have hpos' : 0 < ts'.length := by
              by_contra h0
              have : ts'.length = 0 := by omega
              simp only [List.length_cons] at hlt
              have hm : 0 < m := by omega
              have := hpos hm
              omega
            cases ts' with
            | nil => simp at hpos'
            | cons y ts'' =>
                rw [List.getLast?_cons_cons] at ht
                refine hP5 ?_ t ht
                simp only [List.length_cons] at hlt ⊢
                omega

/-! ## Section 7: worker dispatch (`blueNoiseWorker.ts` lines 337–349)

`self.onmessage` destructures the request and dispatches on `algorithm`:
`'bridson'` goes to `generateBridsonPoints`, anything else to
`generateMitchellPoints`. -/

/-- The `Algorithm` union type (`'mitchell' | 'bridson'`). -/
inductive Algorithm where
  | mitchell : Algorithm
  | bridson : Algorithm
  deriving DecidableEq

/-- The `WorkerMessage` request record. -/
structure WorkerMessage where
  width : ℕ
  height : ℕ
  numPoints : ℕ
  candidatesPerPoint : ℕ
  seed : ℕ
  algorithm : Algorithm
  deriving DecidableEq

open Classical in
/-- The body of `self.onmessage`: select the generator from the request's
`algorithm` field and run it on the request's fields.  `fuel` bounds the
Bridson `while` loop of the embedding. -/
noncomputable def handleMessage (fuel : ℕ) (m : WorkerMessage) :
    Option (List (ℕ × ℕ)) :=
  match m.algorithm with
  | Algorithm.bridson => generateBridsonPoints m.width m.height m.numPoints m.seed fuel
  | Algorithm.mitchell =>
      some (generateMitchellPoints m.width m.height m.numPoints m.candidatesPerPoint m.seed)

/-! ## Section 8: the request-coalescing hook
(`useBlueNoiseWorker.ts` lines 40–58 and 66–88)

The hook keeps one in-flight request and at most one pending request
(`pendingRequestRef`).  `generate` with `numPoints = 0` clears the point list
and submits nothing; while a generation is in flight a new request replaces
any previously queued one; when the worker answers, the handler posts the
pending request, if any.  The model logs, in order, the requests submitted
(`generate` calls that do not take the `numPoints === 0` exit), the requests
posted to the worker, and the completions delivered. -/

/-- The `UseBlueNoiseWorkerOptions` parameter record of a `generate` call. -/
structure HookReq where
  gridWidth : ℕ
  gridHeight : ℕ
  numPoints : ℕ
  seed : ℕ
  candidatesPerPoint : ℕ
  algorithm : Algorithm
  deriving DecidableEq

/-- Hook state: the `isGenerating` flag, the request the worker is currently
executing, `pendingRequestRef`, and the three event logs. -/
structure HookState where
  isGenerating : Bool
  running : Option HookReq
  pending : Option HookReq
  submittedLog : List HookReq
  executedLog : List HookReq
  completedLog : List HookReq
  deriving DecidableEq

/-- An event: a call of `generate` with the given parameters, or the worker
delivering the result of the request it is executing (`onmessage`). -/
inductive HookEvent where
  | generate : HookReq → HookEvent
  | complete : HookEvent
  deriving DecidableEq

/-- One step of the hook.  `generate`: the `numPoints === 0` early exit
submits nothing; otherwise, if busy, the request replaces the pending slot
(`pendingRequestRef.current = params`), else it is posted immediately.
`complete` (a no-op unless a request is executing): the finished request is
recorded, `isGenerating` is cleared, and a pending request, if present, is
popped and posted. -/
def hookStep (st : HookState) : HookEvent → HookState
  | HookEvent.generate r =>
      if r.numPoints = 0 then st
      else if st.isGenerating then
        { st with pending := some r, submittedLog := st.submittedLog ++ [r] }
      else
        { st with isGenerating := true, running := some r,
                  submittedLog := st.submittedLog ++ [r],
                  executedLog := st.executedLog ++ [r] }
  | HookEvent.complete =>
      match st.running with
      | none => st
      | some r =>
          match st.pending with
          | none =>
              { st with isGenerating := false, running := none,
                        completedLog := st.completedLog ++ [r] }
          | some p =>
              { st with isGenerating := true, running := some p, pending := none,
                        completedLog := st.completedLog ++ [r],
                        executedLog := st.executedLog ++ [p] }

/-- The initial hook state: idle, nothing pending, empty logs. -/
def hookInit : HookState := ⟨false, none, none, [], [], []⟩

/-- The hook state after processing a sequence of events from the initial
state. -/
def hookRun (es : List HookEvent) : HookState := es.foldl hookStep hookInit

/-- Structural invariant of the hook: executed requests are a subsequence of
submitted ones; `running` matches `isGenerating`; an idle hook has no pending
request; a pending request is the most recently submitted one; and with no
pending request the last executed request is the last submitted one. -/
def HookInv (st : HookState) : Prop :=
  st.executedLog.Sublist st.submittedLog ∧
  st.running.isSome = st.isGenerating ∧
  (st.isGenerating = false → st.pending = none) ∧
  (∀ p, st.pending = some p →
    ∃ l, st.submittedLog = l ++ [p] ∧ st.executedLog.Sublist l) ∧
  (st.pending = none → st.executedLog.getLast? = st.submittedLog.getLast?)

theorem getLast_append_singleton {α : Type} (l : List α) (a : α) :
    (l ++ [a]).getLast? = some a := by
  induction l with
  | nil => rfl
  | cons x xs ih =>
      cases xs with
      | nil => rfl
      | cons y ys => simpa using ih

theorem hookStep_inv (st : HookState) (e : HookEvent) (hinv : HookInv st) :
    HookInv (hookStep st e) := by
  obtain ⟨hsub, hrun, hidle, hplast, hnolast⟩ := hinv
  cases e with
  | generate r =>
      by_cases h0 : r.numPoints = 0
      · rw [hookStep, if_pos h0]
        exact ⟨hsub, hrun, hidle, hplast, hnolast⟩
      · rw [hookStep, if_neg h0]
        by_cases hg : st.isGenerating
        · rw [if_pos hg]
          refine ⟨?_, hrun, ?_, ?_, ?_⟩
          · exact hsub.trans (List.sublist_append_left _ _)
          · intro habs
            rw [habs] at hg
            cases hg
          · intro p hp
            cases hp
            exact ⟨st.submittedLog, rfl, hsub⟩
          · intro habs
            cases habs
        · rw [if_neg hg]
          have hg' : st.isGenerating = false := by
            cases hgen : st.isGenerating
            · rfl
            · exact absurd hgen hg
          refine ⟨hsub.append (List.Sublist.refl _), rfl, ?_, ?_, ?_⟩
          · intro _
            exact hidle hg'
          · intro p hp
            rw [hidle hg'] at hp
            cases hp
          · intro _
            rw [getLast_append_singleton, getLast_append_singleton]
  | complete =>
      rw [hookStep]
      cases hr : st.running with
      | none =>
          dsimp only
          exact ⟨hsub, hrun, hidle, hplast, hnolast⟩
      | some r =>
          cases hp : st.pending with
          | none =>
              dsimp only
              exact ⟨hsub, rfl, fun _ => rfl, fun p hpp => by simp at hpp,
                fun _ => hnolast hp⟩
          | some p =>
              obtain ⟨l, hl, hsubl⟩ := hplast p hp
              dsimp only
              refine ⟨?_, rfl, ?_, ?_, ?_⟩
              · rw [hl]
                exact hsubl.append (List.Sublist.refl _)
              · intro habs
                cases habs
              · intro p' hp'
                simp at hp'
              · intro _
                rw [hl, getLast_append_singleton, getLast_append_singleton]

theorem hookRun_inv (es : List HookEvent) : HookInv (hookRun es) := by
  have key : ∀ (l : List HookEvent) (st : HookState), HookInv st →
      HookInv (l.foldl hookStep st) := by
    intro l
    induction l with
    | nil => exact fun st h => h
    | cons e rest ih =>
        intro st h
        exact ih (hookStep st e) (hookStep_inv st e h)
  refine key es hookInit ⟨List.Sublist.refl _, rfl, fun _ => rfl, ?_, fun _ => rfl⟩
  intro p hp
  cases hp

/-! ## Section 9: the claims -/

theorem jsLcgState_lt_top (s : ℤ) (hs : s.natAbs < 2 ^ 32) (n : ℕ) :
    jsLcgState s n < 2147483647 := by
  induction n with
  | zero =>
      have h1 := jsLcgNext_lt s
      have h2 := jsLcgNext_ne_top s hs
      show jsLcgNext s < 2147483647
      omega
  | succ m ih =>
      have hst : ((jsLcgState s m : ℕ) : ℤ).natAbs < 2 ^ 32 := by omega
      have h1 := jsLcgNext_lt ((jsLcgState s m : ℕ) : ℤ)
      have h2 := jsLcgNext_ne_top _ hst
      show jsLcgNext (jsLcgState s m) < 2147483647
      omega

/-- C1: determinism — the worker's `onmessage` dispatch is a function of the
request's six fields alone: two requests agreeing on `width`, `height`,
`numPoints`, `candidatesPerPoint`, `seed` and `algorithm` produce the same
ordered point list (both generators consume only a PRNG seeded from the
request). -/
theorem claim_C1_determinism (fuel : ℕ) (m1 m2 : WorkerMessage)
    (hw : m1.width = m2.width) (hh : m1.height = m2.height)
    (hn : m1.numPoints = m2.numPoints)
    (hc : m1.candidatesPerPoint = m2.candidatesPerPoint)
    (hs : m1.seed = m2.seed) (ha : m1.algorithm = m2.algorithm) :
    handleMessage fuel m1 = handleMessage fuel m2 := by
  cases m1
  cases m2
  dsimp only at hw hh hn hc hs ha
  subst hw
  subst hh
  subst hn
  subst hc
  subst hs
  subst ha
  rfl

theorem claim_C1_determinism_witness :
    handleMessage 0 ⟨2, 2, 1, 1, 5, Algorithm.mitchell⟩ =
      handleMessage 0 ⟨2, 2, 1, 1, 5, Algorithm.mitchell⟩ :=
  claim_C1_determinism 0 _ _ rfl rfl rfl rfl rfl rfl

/-- C2: bounds — with positive width and height, every point produced by
`generateMitchellPoints`, by `generateBridsonPoints` (whenever the run
completes) and by `generateBlueNoisePoints` lies in `[0, width) × [0,
height)` (Mitchell/Bridson points are naturals, so `0 ≤` is inherent;
the continuous generator's rational coordinates carry both bounds). -/
theorem claim_C2_bounds (w h : ℕ) (hw : 0 < w) (hh : 0 < h) :
    (∀ n cand seed, ∀ p ∈ generateMitchellPoints w h n cand seed,
        p.1 < w ∧ p.2 < h) ∧
    (∀ n seed fuel l, generateBridsonPoints w h n seed fuel = some l →
        ∀ p ∈ l, p.1 < w ∧ p.2 < h) ∧
    (∀ n cand (seed : ℤ), seed.natAbs < 2 ^ 32 →
        ∀ p ∈ generateBlueNoisePoints w h n cand seed,
          0 ≤ p.1 ∧ p.1 < w ∧ 0 ≤ p.2 ∧ p.2 < h) := by
  refine ⟨?_, ?_, ?_⟩
  · intro n cand seed
    exact generateMitchellPoints_bounds w h n cand seed hw hh
  · intro n seed fuel l hl
    exact generateBridsonPoints_bounds w h n seed fuel l hl
  · intro n cand seed hseed
    exact generateBlueNoisePoints_bounds w h n cand seed hseed hw hh

theorem claim_C2_bounds_witness :
    0 < 3 ∧ 0 < 2 ∧
      ((∀ n cand seed, ∀ p ∈ generateMitchellPoints 3 2 n cand seed,
          p.1 < 3 ∧ p.2 < 2) ∧
        (∀ n seed fuel l, generateBridsonPoints 3 2 n seed fuel = some l →
            ∀ p ∈ l, p.1 < 3 ∧ p.2 < 2) ∧
        (∀ n cand (seed : ℤ), seed.natAbs < 2 ^ 32 →
            ∀ p ∈ generateBlueNoisePoints 3 2 n cand seed,
              0 ≤ p.1 ∧ p.1 < 3 ∧ 0 ≤ p.2 ∧ p.2 < 2)) :=
  ⟨by decide, by decide, claim_C2_bounds 3 2 (by decide) (by decide)⟩

/-- C3: Bridson pre-snap minimum distance — for positive width, height and
radius, `runBridson` completes (the embedding's out-of-bounds branch is never
taken) and any two distinct samples of its continuous output are at Euclidean
distance at least `r`.  The embedding computes in exact real arithmetic, so
the bound is exact rather than within floating tolerance. -/
theorem claim_C3_bridson_min_distance (w h r : ℝ) (k seed fuel : ℕ)
    (hw : 0 < w) (hh : 0 < h) (hr : 0 < r) :
    ∃ st, runBridson w h r k seed fuel = some st ∧
      ∀ i j qi qj, st.samples.get? i = some qi → st.samples.get? j = some qj →
        i ≠ j → r ≤ Real.sqrt (bDist2 qi qj) := by
  obtain ⟨st, hrun, hinv⟩ := runBridson_spec w h r k seed fuel
  refine ⟨st, hrun, ?_⟩
  intro i j qi qj hqi hqj hij
  have hsep := (hinv.2.2 hw hh hr).2.2.2 i j qi qj hqi hqj hij
  have hsq : r ^ 2 ≤ bDist2 qi qj := by
    rw [sq]
    exact hsep
  calc r = Real.sqrt (r ^ 2) := (Real.sqrt_sq hr.le).symm
    _ ≤ Real.sqrt (bDist2 qi qj) := Real.sqrt_le_sqrt hsq

theorem claim_C3_bridson_min_distance_witness :
    (0 : ℝ) < 1 ∧ (0 : ℝ) < 2 ∧ (0 : ℝ) < 1 ∧
      (∃ st, runBridson 1 2 1 30 42 0 = some st ∧
        ∀ i j qi qj, st.samples.get? i = some qi → st.samples.get? j = some qj →
          i ≠ j → (1 : ℝ) ≤ Real.sqrt (bDist2 qi qj)) :=
  ⟨one_pos, two_pos, one_pos,
    claim_C3_bridson_min_distance 1 2 1 30 42 0 one_pos two_pos one_pos⟩

/-- C4: Mitchell uniqueness — the output of `generateMitchellPoints` has no
duplicate `(x, y)` pair: a candidate whose cell is in `filledCells` is
skipped, the fallback re-checks membership, and every placed point is
recorded in `filledCells`, which the invariant keeps equal to the placed
point list. -/
theorem claim_C4_mitchell_uniqueness (w h n cand seed : ℕ) :
    (generateMitchellPoints w h n cand seed).Nodup :=
  (generateMitchellPoints_inv w h n cand seed).2.1

/-- C6: the calibration loop of `generateBridsonPoints` — starting from the
bracket `[0.5, bridsonRMax]`, it runs at most 8 bisection iterations; trial
`i` runs the core at the midpoint of its bracket with reseed `seed + i *
1000`; a trial under the target halves the bracket downward (`hi :=` mid), one
at or over the target halves it upward (`lo :=` mid); no trial before the last
satisfies the stop test, and if fewer than 8 iterations ran the last trial
does (count within `max 1 (5%)` of the target); the retained list is the
earliest trial minimizing the count distance to the target, and for
non-degenerate parameters `generateBridsonPoints` returns exactly that
trial's snapped-and-deduplicated pixels. -/
theorem claim_C6_calibration (w h n seed fuel : ℕ) :
    ∃ ts, calibTrials w h (min n (w * h)) 30 seed fuel 8 0 (1 / 2 : ℝ)
        (bridsonRMax w h (min n (w * h))) = some ts ∧
      ts.length ≤ 8 ∧ 0 < ts.length ∧
      (∀ ht : 0 < ts.length, (ts.get ⟨0, ht⟩).1 = 1 / 2 ∧
        (ts.get ⟨0, ht⟩).2.1 = bridsonRMax w h (min n (w * h))) ∧
      (∀ i (hilt : i < ts.length), ∃ st,
          runBridson w h (((ts.get ⟨i, hilt⟩).1 + (ts.get ⟨i, hilt⟩).2.1) / 2) 30
            (seed + i * 1000) fuel = some st ∧
          (ts.get ⟨i, hilt⟩).2.2 = st.samples) ∧
      (∀ i (hilt : i + 1 < ts.length),
          ((ts.get ⟨i, Nat.lt_of_succ_lt hilt⟩).2.2.length < min n (w * h) →
            (ts.get ⟨i + 1, hilt⟩).1 = (ts.get ⟨i, Nat.lt_of_succ_lt hilt⟩).1 ∧
            (ts.get ⟨i + 1, hilt⟩).2.1 =
              ((ts.get ⟨i, Nat.lt_of_succ_lt hilt⟩).1 +
                (ts.get ⟨i, Nat.lt_of_succ_lt hilt⟩).2.1) / 2) ∧
          (min n (w * h) ≤ (ts.get ⟨i, Nat.lt_of_succ_lt hilt⟩).2.2.length →
            (ts.get ⟨i + 1, hilt⟩).1 =
              ((ts.get ⟨i, Nat.lt_of_succ_lt hilt⟩).1 +
                (ts.get ⟨i, Nat.lt_of_succ_lt hilt⟩).2.1) / 2 ∧
            (ts.get ⟨i + 1, hilt⟩).2.1 =
              (ts.get ⟨i, Nat.lt_of_succ_lt hilt⟩).2.1)) ∧
      (∀ i (hilt : i + 1 < ts.length),
          ¬ calibStop (countDiff (ts.get ⟨i, Nat.lt_of_succ_lt hilt⟩).2.2.length
            (min n (w * h))) (min n (w * h))) ∧
      (ts.length < 8 → ∀ t, ts.getLast? = some t →
          calibStop (countDiff t.2.2.length (min n (w * h))) (min n (w * h))) ∧
      ∃ a, FirstMinAt (fun pts => countDiff pts.length (min n (w * h)))
          (ts.map fun t => t.2.2) a ∧
        calibLoop w h (min n (w * h)) 30 seed fuel 8 0 (1 / 2 : ℝ)
          (bridsonRMax w h (min n (w * h))) none = some a ∧
        (n ≠ 0 → w ≠ 0 → h ≠ 0 →
          generateBridsonPoints w h n seed fuel = some (snapDedup w h a [])) := by
  obtain ⟨ts, hts, hdisj⟩ := calibLoop_trials w h (min n (w * h)) 30 seed fuel 8 0
    (1 / 2 : ℝ) (bridsonRMax w h (min n (w * h))) none [] (Or.inl ⟨rfl, rfl⟩)
  obtain ⟨hlen, hpos, hhead, hP3, hP2, hP4, hP5⟩ :=
    calibTrials_props w h (min n (w * h)) 30 seed fuel 8 0 (1 / 2 : ℝ)
      (bridsonRMax w h (min n (w * h))) ts hts
  have hpos8 := hpos (by norm_num)
  refine ⟨ts, hts, hlen, hpos8, hhead, ?_, hP2, hP4, hP5, ?_⟩
  · intro i hilt
    obtain ⟨st, hrun, heq⟩ := hP3 i hilt
    exact ⟨st, by simpa using hrun, heq⟩
  · rcases hdisj with ⟨habs, _⟩ | ⟨a, hfm, hloop⟩
    · exfalso
      rw [List.nil_append] at habs
      have hts0 : ts = [] := by
        cases ts with
        | nil => rfl
        | cons t ts2 => simp at habs
      rw [hts0] at hpos8
      simp at hpos8
    · refine ⟨a, by simpa using hfm, hloop, ?_⟩
      intro hn hw hh
      rw [generateBridsonPoints, if_neg (by tauto), hloop]

/-- C7 counterexample — the original claim says that when every candidate
trial of a round hits a filled cell and the 100 fallback probes also fail,
generation stops early.  Concrete refutation: on a `16 × 1` grid with
`numPoints = 24`, one candidate per point and seed `1117`, round 15 fails
completely (`mitchellRoundFailed` holds at the state before it, which has 15
points), yet the final output has 16 points — a later round placed another
point, so generation continued past the fully failed round. -/
theorem claim_C7_counterexample :
    mitchellRoundFailed 16 1 1 (cellSizeSq 16 1 24)
        (mitchellStateAt 16 1 24 1 1117 15) = true ∧
    (mitchellStateAt 16 1 24 1 1117 15).points.length = 15 ∧
    (generateMitchellPoints 16 1 24 1 1117).length = 16 := by
  decide

/-- C7 (amended): when every candidate trial of a round hits a filled cell
and the 100 fallback probes also find no empty cell, that round places
nothing (points and filled cells are unchanged; only the PRNG state
advances) — but generation does not stop: as long as the grid is not
saturated the loop proceeds with the remaining rounds from the advanced
state. -/
theorem claim_C7_amended (w h cand : ℕ) (s : ℚ) (st : MState) (r : ℕ)
    (hfail : mitchellRoundFailed w h cand s st = true)
    (hlt : st.filledCells.length < w * h) :
    (mitchellRound w h cand s st).points = st.points ∧
    (mitchellRound w h cand s st).filledCells = st.filledCells ∧
    mitchellLoop w h cand s (r + 1) st =
      mitchellLoop w h cand s r (mitchellRound w h cand s st) := by
  obtain ⟨hp, hf⟩ := mitchellRound_failed_noop w h cand s st hfail
  exact ⟨hp, hf, mitchellLoop_continue w h cand s st r hlt⟩

theorem claim_C7_amended_witness :
    mitchellRoundFailed 16 1 1 (cellSizeSq 16 1 24)
        (mitchellStateAt 16 1 24 1 1117 15) = true ∧
    (mitchellStateAt 16 1 24 1 1117 15).filledCells.length < 16 * 1 ∧
    ((mitchellRound 16 1 1 (cellSizeSq 16 1 24)
        (mitchellStateAt 16 1 24 1 1117 15)).points =
          (mitchellStateAt 16 1 24 1 1117 15).points ∧
      (mitchellRound 16 1 1 (cellSizeSq 16 1 24)
        (mitchellStateAt 16 1 24 1 1117 15)).filledCells =
          (mitchellStateAt 16 1 24 1 1117 15).filledCells ∧
      mitchellLoop 16 1 1 (cellSizeSq 16 1 24) (8 + 1)
          (mitchellStateAt 16 1 24 1 1117 15) =
        mitchellLoop 16 1 1 (cellSizeSq 16 1 24) 8
          (mitchellRound 16 1 1 (cellSizeSq 16 1 24)
            (mitchellStateAt 16 1 24 1 1117 15))) :=
  ⟨by decide, by decide,
    claim_C7_amended 16 1 1 (cellSizeSq 16 1 24)
      (mitchellStateAt 16 1 24 1 1117 15) 8 (by decide) (by decide)⟩

/-- C8: PRNG range — every value the Mulberry32 generator returns is an
exact rational in `[0, 1)` (numerator is a masked 32-bit word over `2 ^
32`), and every value the LCG of `blueNoise.ts` returns from a 32-bit-
magnitude state is in `[0, 1)`: its state stays below `2 ^ 31` and, under
faithful IEEE-double semantics, never equals `0x7fffffff`, so dividing by
`0x7fffffff` never yields `1`. -/
theorem claim_C8_prng_range (seed n : ℕ) (s0 : ℤ) :
    (0 ≤ mulberryQ seed n ∧ mulberryQ seed n < 1) ∧
    (s0.natAbs < 2 ^ 32 → 0 ≤ jsLcgQ s0 n ∧ jsLcgQ s0 n < 1) := by
  refine ⟨⟨mulberryQ_nonneg seed n, mulberryQ_lt_one seed n⟩, ?_⟩
  intro hs0
  constructor
  · exact div_nonneg (Nat.cast_nonneg _) (by norm_num)
  · unfold jsLcgQ
    rw [div_lt_one (by norm_num)]
    exact_mod_cast jsLcgState_lt_top s0 hs0 n

/-- C9: coalescing — in the hook model, if requests `r1`, `r2`, `r3` are
submitted in that order while `r1` is still executing, exactly `r1` and then
`r3` are posted to the worker and complete, and `r2` (if distinct) never
appears among the completions; in general the executed requests are a
subsequence of the submitted ones, and whenever no request is pending the
last executed request is the most recently submitted one. -/
theorem claim_C9_coalescing (r1 r2 r3 : HookReq) :
    (r1.numPoints ≠ 0 → r2.numPoints ≠ 0 → r3.numPoints ≠ 0 →
      (hookRun [HookEvent.generate r1, HookEvent.generate r2,
          HookEvent.generate r3, HookEvent.complete,
          HookEvent.complete]).executedLog = [r1, r3] ∧
      (hookRun [HookEvent.generate r1, HookEvent.generate r2,
          HookEvent.generate r3, HookEvent.complete,
          HookEvent.complete]).completedLog = [r1, r3] ∧
      (r2 ≠ r1 → r2 ≠ r3 →
        r2 ∉ (hookRun [HookEvent.generate r1, HookEvent.generate r2,
          HookEvent.generate r3, HookEvent.complete,
          HookEvent.complete]).completedLog)) ∧
    (∀ es : List HookEvent,
      (hookRun es).executedLog.Sublist (hookRun es).submittedLog ∧
      ((hookRun es).pending = none →
        (hookRun es).executedLog.getLast? = (hookRun es).submittedLog.getLast?)) := by
  constructor
  · intro h1 h2 h3
    have hfin : hookRun [HookEvent.generate r1, HookEvent.generate r2,
        HookEvent.generate r3, HookEvent.complete, HookEvent.complete] =
        { isGenerating := false, running := none, pending := none,
          submittedLog := [r1, r2, r3], executedLog := [r1, r3],
          completedLog := [r1, r3] } := by
      simp [hookRun, hookStep, hookInit, h1, h2, h3]
    rw [hfin]
    refine ⟨rfl, rfl, ?_⟩
    intro hne1 hne3
    simp [hne1, hne3]
  · intro es
    exact ⟨(hookRun_inv es).1, (hookRun_inv es).2.2.2.2⟩

/-- C10: implicit index safety of `runBridson` — the run never takes the
embedding's error branch (every `samples[active[ai]]` and `samples[sIdx]`
access in the loop is modelled as a fallible lookup whose failure aborts the
whole run with `none`, and the result is always `some`), and in the final
state every active-list entry and every grid cell entry is a valid index
into the samples array. -/
theorem claim_C10_index_safety (w h r : ℝ) (k seed fuel : ℕ) :
    ∃ st, runBridson w h r k seed fuel = some st ∧
      (∀ i ∈ st.active, i < st.samples.length) ∧
      (∀ c i, st.grid c = some i → i < st.samples.length) := by
  obtain ⟨st, hrun, hinv⟩ := runBridson_spec w h r k seed fuel
  exact ⟨st, hrun, hinv.1, hinv.2.1⟩

end BlueNoise
